import Mathlib

/-!
# Verification of the CacheLibBackTests bounded TTL/LRU cache

A shallow embedding of `src/lru_cache.py` (class `LRUCache`) and
`src/batch_refresh_cache.py` (class `BatchRefreshCache`).

Modelling conventions:
* Python's `OrderedDict` is an association list `List (K × ℤ)` whose front is
  the least-recently-inserted/touched entry and whose back is the most recent,
  matching `OrderedDict` insertion order with `move_to_end` /
  `popitem(last=False)`.
* Logical timestamps and durations (`datetime` / `timedelta.total_seconds()`)
  are integer seconds `ℤ` (the replayed trace parses whole-second timestamps);
  the half-TTL fraction and the derived `half_ttl_seconds` threshold are
  rationals `ℚ`.
* The cached value is always the literal `0` in the Python code, so an entry
  is modelled by its key and timestamp only.
* Python constructors can raise; both constructors here are wrapped in
  `Except String` so that "construction fails" is expressible.  The bodies
  mirror the Python `__init__` methods, which never raise.
-/

set_option linter.unusedVariables false
set_option linter.unusedSectionVars false
set_option linter.unnecessarySimpa false

variable {K : Type} [DecidableEq K]

/-- `k in od` / `od[k]` on an `OrderedDict`: the timestamp stored under `k`,
`none` when absent. -/
def odLookup : List (K × ℤ) → K → Option ℤ
  | [], _ => none
  | p :: rest, k => if p.1 = k then some p.2 else odLookup rest k

/-- Remove the first entry with key `k` (helper for `move_to_end`). -/
def odRemove : List (K × ℤ) → K → List (K × ℤ)
  | [], _ => []
  | p :: rest, k => if p.1 = k then rest else p :: odRemove rest k

/-- `od[k] = v` on an `OrderedDict`: update in place when present (keeping the
entry's position), append at the back when absent. -/
def odSet (c : List (K × ℤ)) (k : K) (v : ℤ) : List (K × ℤ) :=
  if (odLookup c k).isSome then
    c.map (fun p => if p.1 = k then (p.1, v) else p)
  else
    c ++ [(k, v)]

/-- `od.move_to_end(k)`: the Python code only calls this on present keys; on an
absent key it is the identity here (Python would raise `KeyError`). -/
def odMoveToEnd (c : List (K × ℤ)) (k : K) : List (K × ℤ) :=
  match odLookup c k with
  | none => c
  | some ts => odRemove c k ++ [(k, ts)]

/-- The keys of an `OrderedDict`, in order. -/
def odKeys (c : List (K × ℤ)) : List K := c.map Prod.fst

/-- A Python `dict` holds each key at most once; every cache reachable from an
empty one satisfies this. -/
def NodupKeys (c : List (K × ℤ)) : Prop := (odKeys c).Nodup

instance (c : List (K × ℤ)) : Decidable (NodupKeys c) := by
  unfold NodupKeys; infer_instance

/-- State of `LRUCache` (src/lru_cache.py): configuration, the ordered map,
and the statistics counters. -/
structure LRUCache (K : Type) where
  max_size : Int
  ttl_seconds : ℤ
  cache : List (K × ℤ)
  hits : Nat
  misses : Nat
  bulk_misses : Nat
  evictions : Nat
  expirations : Nat
  deriving Repr, DecidableEq

namespace LRUCache

/-- `LRUCache.__init__`.  The Python constructor performs no validation and
never raises, which the `.ok` result records. -/
def init (K : Type) (max_size : Int) (ttl : ℤ) : Except String (LRUCache K) :=
  .ok { max_size := max_size
        ttl_seconds := ttl
        cache := []
        hits := 0
        misses := 0
        bulk_misses := 0
        evictions := 0
        expirations := 0 }

/-- `LRUCache._is_expired_at_time`. -/
def isExpiredAtTime (s : LRUCache K) (cache_timestamp request_time : ℤ) : Bool :=
  request_time - cache_timestamp > s.ttl_seconds

/-- One iteration of the per-key classification loop inside `LRUCache.get`
(lines 47-61).  The accumulator carries the evolving state (hits are counted
and hit entries promoted as the loop runs) together with `results`,
`missing_keys` and `expired_keys`. -/
def scanStep (t : ℤ) (acc : LRUCache K × List Int × List K × List K) (k : K) :
    LRUCache K × List Int × List K × List K :=
  let (s, results, missing, expired) := acc
  match odLookup s.cache k with
  | some ts =>
      if s.isExpiredAtTime ts t then
        (s, results ++ [0], missing, expired ++ [k])
      else
        ({ s with cache := odMoveToEnd s.cache k, hits := s.hits + 1 },
         results ++ [0], missing, expired)
  | none => (s, results ++ [0], missing ++ [k], expired)

/-- The whole classification loop of `LRUCache.get`. -/
def scanKeys (s : LRUCache K) (keys : List K) (t : ℤ) :
    LRUCache K × List Int × List K × List K :=
  keys.foldl (scanStep t) (s, [], [], [])

/-- The body of the loop in `LRUCache._add_keys_to_cache` (lines 84-91): if
the cache is at capacity, `popitem(last=False)` the least-recently-touched
entry and count the eviction; then `self.cache[key] = (0, timestamp)`. -/
def addOneKey (s : LRUCache K) (k : K) (timestamp : ℤ) : LRUCache K :=
  if (s.cache.length : Int) ≥ s.max_size then
    { s with cache := odSet s.cache.tail k timestamp,
             evictions := s.evictions + 1 }
  else
    { s with cache := odSet s.cache k timestamp }

/-- `LRUCache._add_keys_to_cache`: run `addOneKey` over the key list. -/
def addKeysToCache (s : LRUCache K) (keys : List K) (timestamp : ℤ) : LRUCache K :=
  keys.foldl (fun s k => addOneKey s k timestamp) s

/-- The expired-key reinsertion loop of `LRUCache.get` (lines 66-69). -/
def reinsertExpired (s : LRUCache K) (expired : List K) (t : ℤ) : LRUCache K :=
  expired.foldl
    (fun s k =>
      { s with cache := odMoveToEnd (odSet s.cache k t) k,
               expirations := s.expirations + 1 })
    s

/-- `LRUCache.get`: bulk lookup returning one flag per key and the updated
state. -/
def get (s : LRUCache K) (keys : List K) (request_time : ℤ) :
    List Int × LRUCache K :=
  if keys = [] then ([], s)
  else
    let (s1, results, missing, expired) := scanKeys s keys request_time
    if missing.length + expired.length = 0 then (results, s1)
    else
      let s2 := reinsertExpired s1 expired request_time
      let s3 := if missing = [] then s2 else addKeysToCache s2 missing request_time
      (results,
       { s3 with misses := s3.misses + (missing.length + expired.length),
                 bulk_misses := s3.bulk_misses + 1 })

/-- `LRUCache.get_single`. -/
def getSingle (s : LRUCache K) (k : K) (request_time : ℤ) : Int × LRUCache K :=
  let (results, s') := s.get [k] request_time
  (results.headI, s')

/-- The snapshot returned by `LRUCache.get_stats` (payload fields only). -/
structure Stats where
  hits : Nat
  misses : Nat
  bulk_misses : Nat
  total_requests : Nat
  hit_rate_percent : ℚ
  evictions : Nat
  expirations : Nat
  current_size : Nat
  max_size : Int
  ttl : ℤ
  deriving Repr, DecidableEq

/-- `LRUCache.get_stats`. -/
def getStats (s : LRUCache K) : Stats :=
  let total_requests := s.hits + s.misses
  let hit_rate : ℚ :=
    if total_requests > 0 then (s.hits : ℚ) / (total_requests : ℚ) * 100 else 0
  { hits := s.hits
    misses := s.misses
    bulk_misses := s.bulk_misses
    total_requests := total_requests
    hit_rate_percent := hit_rate
    evictions := s.evictions
    expirations := s.expirations
    current_size := s.cache.length
    max_size := s.max_size
    ttl := s.ttl_seconds }

/-- `LRUCache.size`. -/
def size (s : LRUCache K) : Nat := s.cache.length

/-- Replay a sequence of `get` calls (each element is a key list with its
logical request time), returning the final state. -/
def run (s : LRUCache K) (calls : List (List K × ℤ)) : LRUCache K :=
  calls.foldl (fun s c => (s.get c.1 c.2).2) s

end LRUCache

/-- State of `BatchRefreshCache` (src/batch_refresh_cache.py), a subclass of
`LRUCache`; the inherited state lives in `toLRUCache`. -/
structure BatchRefreshCache (K : Type) extends LRUCache K where
  half_ttl : ℚ
  max_request_size : Int
  half_ttl_seconds : ℚ
  refresh_batch : List K
  batch_updates : Nat
  deriving Repr, DecidableEq

namespace BatchRefreshCache

/-- `BatchRefreshCache.__init__`: delegates to the base constructor and sets
`half_ttl_seconds = ttl.total_seconds() * half_ttl`.  Again no validation is
performed and construction never raises. -/
def init (K : Type) (max_size : Int) (ttl : ℤ) (half_ttl : ℚ)
    (max_request_size : Int) : Except String (BatchRefreshCache K) :=
  match LRUCache.init K max_size ttl with
  | .error e => .error e
  | .ok base =>
      .ok { toLRUCache := base
            half_ttl := half_ttl
            max_request_size := max_request_size
            half_ttl_seconds := (ttl : ℚ) * half_ttl
            refresh_batch := []
            batch_updates := 0 }

/-- `BatchRefreshCache._is_near_expiration`. -/
def isNearExpiration (s : BatchRefreshCache K)
    (cache_timestamp request_time : ℤ) : Bool :=
  ((request_time - cache_timestamp : ℤ) : ℚ) > s.half_ttl_seconds

/-- The near-expiry collection loop of `BatchRefreshCache.get` (lines 70-77):
keys that are present, unexpired, near expiry and not already in
`self.refresh_batch` are appended to the local `near_expired_keys` list.  Note
the membership test is against `self.refresh_batch`, which is unchanged while
the loop runs, so a key repeated in `keys` is collected once per occurrence. -/
def collectNearExpired (s : BatchRefreshCache K) (keys : List K) (t : ℤ) :
    List K :=
  keys.foldl
    (fun acc k =>
      match odLookup s.cache k with
      | none => acc
      | some ts =>
          if s.isExpiredAtTime ts t then acc
          else if s.isNearExpiration ts t then
            if k ∈ s.refresh_batch then acc else acc ++ [k]
          else acc)
    []

/-- The Bool test deciding whether one occurrence of key `k` is appended to
`near_expired_keys` by the loop of lines 71-77, relative to the state at the
start of the call: present, unexpired, near expiry, and not already in
`self.refresh_batch`. -/
def shouldEnqueue (s : BatchRefreshCache K) (t : ℤ) (k : K) : Bool :=
  match odLookup s.cache k with
  | none => false
  | some ts =>
      if s.isExpiredAtTime ts t then false
      else if s.isNearExpiration ts t then decide (k ∉ s.refresh_batch)
      else false

/-- `BatchRefreshCache._process_refresh_batch`: when the queue has reached
`max_request_size`, reset every still-present queued key's timestamp to
`request_time` and promote it, bump `batch_updates`, and clear the queue. -/
def processRefreshBatch (s : BatchRefreshCache K) (request_time : ℤ) :
    BatchRefreshCache K :=
  if (s.refresh_batch.length : Int) ≥ s.max_request_size then
    let cache' := s.refresh_batch.foldl
      (fun c k =>
        if (odLookup c k).isSome then
          odMoveToEnd (odSet c k request_time) k
        else c)
      s.cache
    { s with toLRUCache := { s.toLRUCache with cache := cache' },
             batch_updates := s.batch_updates + 1,
             refresh_batch := [] }
  else s

/-- The state of the batch cache after the enqueue phase and the delegated
`super().get` call, but before `_process_refresh_batch` (the state
`BatchRefreshCache.get` reaches at line 86). -/
def afterDelegate (s : BatchRefreshCache K) (keys : List K) (t : ℤ) :
    BatchRefreshCache K :=
  let s1 := { s with refresh_batch := s.refresh_batch ++ collectNearExpired s keys t }
  { s1 with toLRUCache := (LRUCache.get s1.toLRUCache keys t).2 }

/-- `BatchRefreshCache.get`. -/
def get (s : BatchRefreshCache K) (keys : List K) (request_time : ℤ) :
    List Int × BatchRefreshCache K :=
  if keys = [] then ([], s)
  else
    let s1 := { s with refresh_batch := s.refresh_batch ++ collectNearExpired s keys request_time }
    let (results, lru') := LRUCache.get s1.toLRUCache keys request_time
    let s2 := { s1 with toLRUCache := lru' }
    (results, s2.processRefreshBatch request_time)

/-- Replay a sequence of batched `get` calls. -/
def run (s : BatchRefreshCache K) (calls : List (List K × ℤ)) :
    BatchRefreshCache K :=
  calls.foldl (fun s c => (s.get c.1 c.2).2) s

end BatchRefreshCache

/-! ## Basic lemmas about the ordered-dictionary operations -/

@[simp] theorem odLookup_nil (k : K) : odLookup ([] : List (K × ℤ)) k = none := rfl

@[simp] theorem odLookup_cons (p : K × ℤ) (c : List (K × ℤ)) (k : K) :
    odLookup (p :: c) k = if p.1 = k then some p.2 else odLookup c k := rfl

@[simp] theorem odKeys_nil : odKeys ([] : List (K × ℤ)) = [] := rfl

@[simp] theorem odKeys_cons (p : K × ℤ) (c : List (K × ℤ)) :
    odKeys (p :: c) = p.1 :: odKeys c := rfl

@[simp] theorem odKeys_append (c d : List (K × ℤ)) :
    odKeys (c ++ d) = odKeys c ++ odKeys d := by
  simp [odKeys]

theorem odLookup_isSome_iff (c : List (K × ℤ)) (k : K) :
    (odLookup c k).isSome ↔ k ∈ odKeys c := by
  induction c with
  | nil => simp
  | cons p rest ih =>
      by_cases hp : p.1 = k
      · simp [hp]
      · simp only [odLookup_cons, hp, if_false, odKeys_cons, List.mem_cons, ih]
        constructor
        · exact fun h => Or.inr h
        · rintro (h | h)
          · exact absurd h.symm hp
          · exact h

theorem odLookup_eq_none_iff (c : List (K × ℤ)) (k : K) :
    odLookup c k = none ↔ k ∉ odKeys c := by
  rw [← odLookup_isSome_iff, Option.isSome_iff_exists]
  cases odLookup c k <;> simp

theorem odLookup_append_left (c d : List (K × ℤ)) (k : K)
    (h : (odLookup c k).isSome) : odLookup (c ++ d) k = odLookup c k := by
  induction c with
  | nil => simp at h
  | cons p rest ih =>
      by_cases hp : p.1 = k <;> simp_all [hp]

theorem odLookup_append_right (c d : List (K × ℤ)) (k : K)
    (h : odLookup c k = none) : odLookup (c ++ d) k = odLookup d k := by
  induction c with
  | nil => simp
  | cons p rest ih =>
      by_cases hp : p.1 = k <;> simp_all [hp]

theorem odRemove_sublist (c : List (K × ℤ)) (k : K) : (odRemove c k).Sublist c := by
  induction c with
  | nil => simp [odRemove]
  | cons p rest ih =>
      by_cases hp : p.1 = k
      · simpa [odRemove, hp] using List.sublist_cons_self p rest
      · simpa [odRemove, hp] using ih.cons₂ p

theorem odRemove_of_not_mem (c : List (K × ℤ)) (k : K)
    (h : odLookup c k = none) : odRemove c k = c := by
  induction c with
  | nil => rfl
  | cons p rest ih =>
      by_cases hp : p.1 = k <;> simp_all [odRemove, hp]

theorem length_odRemove (c : List (K × ℤ)) (k : K)
    (h : (odLookup c k).isSome) : (odRemove c k).length + 1 = c.length := by
  induction c with
  | nil => simp at h
  | cons p rest ih =>
      by_cases hp : p.1 = k
      · simp [odRemove, hp]
      · simp only [odLookup_cons, hp, if_false] at h
        simp [odRemove, hp, ih h]

theorem odLookup_odRemove_of_ne (c : List (K × ℤ)) (k k' : K) (h : k' ≠ k) :
    odLookup (odRemove c k) k' = odLookup c k' := by
  induction c with
  | nil => rfl
  | cons p rest ih =>
      by_cases hp : p.1 = k
      · have hpk' : ¬ p.1 = k' := by rw [hp]; exact fun hh => h hh.symm
        simp [odRemove, hp, hpk', Ne.symm h]
      · by_cases hp' : p.1 = k'
        · simp [odRemove, hp, hp', h]
        · simp [odRemove, hp, hp', ih, h]

theorem odKeys_odRemove_of_nodup (c : List (K × ℤ)) (k : K) (h : NodupKeys c) :
    k ∉ odKeys (odRemove c k) := by
  induction c with
  | nil => simp [odRemove]
  | cons p rest ih =>
      simp only [NodupKeys, odKeys_cons, List.nodup_cons] at h
      by_cases hp : p.1 = k
      · subst hp
        simpa [odRemove] using h.1
      · simp only [odRemove, hp, if_false, odKeys_cons]
        intro hmem
        rcases List.mem_cons.mp hmem with h1 | h2
        · exact hp h1.symm
        · exact ih h.2 h2

theorem odLookup_odRemove_self (c : List (K × ℤ)) (k : K) (h : NodupKeys c) :
    odLookup (odRemove c k) k = none :=
  (odLookup_eq_none_iff _ _).mpr (odKeys_odRemove_of_nodup c k h)

theorem nodupKeys_odRemove (c : List (K × ℤ)) (k : K) (h : NodupKeys c) :
    NodupKeys (odRemove c k) :=
  List.Nodup.sublist (List.Sublist.map Prod.fst (odRemove_sublist c k)) h

theorem nodupKeys_tail (c : List (K × ℤ)) (h : NodupKeys c) : NodupKeys c.tail :=
  List.Nodup.sublist (List.Sublist.map Prod.fst (List.tail_sublist c)) h

theorem odLookup_tail (c : List (K × ℤ)) (k : K) (v : ℤ) (h : NodupKeys c)
    (hl : odLookup c.tail k = some v) : odLookup c k = some v := by
  cases c with
  | nil => simp at hl
  | cons p rest =>
      simp only [List.tail_cons] at hl
      by_cases hp : p.1 = k
      · exfalso
        simp only [NodupKeys, odKeys_cons, List.nodup_cons] at h
        have : k ∈ odKeys rest :=
          (odLookup_isSome_iff rest k).mp (by simp [hl])
        exact h.1 (hp ▸ this)
      · simp [hp, hl]

theorem odLookup_mapSet_self (c : List (K × ℤ)) (k : K) (v : ℤ)
    (h : (odLookup c k).isSome) :
    odLookup (c.map fun p => if p.1 = k then (p.1, v) else p) k = some v := by
  induction c with
  | nil => simp at h
  | cons p rest ih =>
      by_cases hp : p.1 = k
      · simp [hp]
      · simp only [odLookup_cons, hp, if_false] at h
        simp [hp, ih h]

theorem odLookup_mapSet_ne (c : List (K × ℤ)) (k k' : K) (v : ℤ) (h : k' ≠ k) :
    odLookup (c.map fun p => if p.1 = k then (p.1, v) else p) k' = odLookup c k' := by
  induction c with
  | nil => rfl
  | cons p rest ih =>
      by_cases hp : p.1 = k
      · have hpk' : ¬ p.1 = k' := by rw [hp]; exact fun hh => h hh.symm
        simp [hp, hpk', ih, Ne.symm h]
      · by_cases hp' : p.1 = k' <;> simp [hp, hp', ih, h]

theorem odLookup_odSet_self (c : List (K × ℤ)) (k : K) (v : ℤ) :
    odLookup (odSet c k v) k = some v := by
  unfold odSet
  by_cases h : (odLookup c k).isSome
  · simp only [h, if_true]
    exact odLookup_mapSet_self c k v h
  · have hn : odLookup c k = none := Option.not_isSome_iff_eq_none.mp h
    simp only [h, Bool.false_eq_true, if_false]
    rw [odLookup_append_right _ _ _ hn]
    simp

theorem odLookup_odSet_ne (c : List (K × ℤ)) (k k' : K) (v : ℤ) (h : k' ≠ k) :
    odLookup (odSet c k v) k' = odLookup c k' := by
  unfold odSet
  by_cases hs : (odLookup c k).isSome
  · simp only [hs, if_true]
    exact odLookup_mapSet_ne c k k' v h
  · simp only [hs, Bool.false_eq_true, if_false]
    by_cases hs' : (odLookup c k').isSome
    · exact odLookup_append_left _ _ _ hs'
    · have hn' : odLookup c k' = none := Option.not_isSome_iff_eq_none.mp hs'
      rw [odLookup_append_right _ _ _ hn', hn']
      simp [Ne.symm h]

theorem length_odSet_present (c : List (K × ℤ)) (k : K) (v : ℤ)
    (h : (odLookup c k).isSome) : (odSet c k v).length = c.length := by
  simp [odSet, h]

theorem length_odSet_absent (c : List (K × ℤ)) (k : K) (v : ℤ)
    (h : odLookup c k = none) : (odSet c k v).length = c.length + 1 := by
  simp [odSet, h]

theorem odKeys_odSet_present (c : List (K × ℤ)) (k : K) (v : ℤ)
    (h : (odLookup c k).isSome) : odKeys (odSet c k v) = odKeys c := by
  unfold odSet odKeys
  rw [if_pos h, List.map_map]
  refine List.map_congr_left ?_
  intro p hp
  by_cases hpk : p.1 = k <;> simp [hpk]

theorem odKeys_odSet_absent (c : List (K × ℤ)) (k : K) (v : ℤ)
    (h : odLookup c k = none) : odKeys (odSet c k v) = odKeys c ++ [k] := by
  unfold odSet
  rw [if_neg (by simp [h])]
  simp

theorem nodupKeys_odSet (c : List (K × ℤ)) (k : K) (v : ℤ) (h : NodupKeys c) :
    NodupKeys (odSet c k v) := by
  by_cases hs : (odLookup c k).isSome
  · unfold NodupKeys
    rw [odKeys_odSet_present c k v hs]
    exact h
  · have hn : odLookup c k = none := Option.not_isSome_iff_eq_none.mp hs
    have hk : k ∉ odKeys c := (odLookup_eq_none_iff c k).mp hn
    unfold NodupKeys
    rw [odKeys_odSet_absent c k v hn]
    simp only [List.nodup_append, List.nodup_singleton, true_and]
    exact ⟨h, by simpa using hk⟩

theorem odMoveToEnd_of_not_mem (c : List (K × ℤ)) (k : K)
    (h : odLookup c k = none) : odMoveToEnd c k = c := by
  simp [odMoveToEnd, h]

theorem length_odMoveToEnd (c : List (K × ℤ)) (k : K) :
    (odMoveToEnd c k).length = c.length := by
  unfold odMoveToEnd
  cases hc : odLookup c k with
  | none => rfl
  | some ts =>
      have := length_odRemove c k (by simp [hc])
      simp only [List.length_append, List.length_singleton]
      omega

theorem odLookup_odMoveToEnd_ne (c : List (K × ℤ)) (k k' : K) (h : k' ≠ k) :
    odLookup (odMoveToEnd c k) k' = odLookup c k' := by
  unfold odMoveToEnd
  cases hc : odLookup c k with
  | none => rfl
  | some ts =>
      by_cases hs : (odLookup (odRemove c k) k').isSome
      · rw [odLookup_append_left _ _ _ hs, odLookup_odRemove_of_ne c k k' h]
      · have hn : odLookup (odRemove c k) k' = none :=
          Option.not_isSome_iff_eq_none.mp hs
        rw [odLookup_append_right _ _ _ hn]
        rw [odLookup_odRemove_of_ne c k k' h] at hn
        simp [hn, Ne.symm h]

theorem odLookup_odMoveToEnd_self (c : List (K × ℤ)) (k : K) (h : NodupKeys c) :
    odLookup (odMoveToEnd c k) k = odLookup c k := by
  unfold odMoveToEnd
  cases hc : odLookup c k with
  | none => exact hc
  | some ts =>
      rw [odLookup_append_right _ _ _ (odLookup_odRemove_self c k h)]
      simp

theorem perm_odRemove (c : List (K × ℤ)) (k : K) (ts : ℤ)
    (h : odLookup c k = some ts) : c.Perm ((k, ts) :: odRemove c k) := by
  induction c with
  | nil => simp at h
  | cons p rest ih =>
      by_cases hp : p.1 = k
      · simp only [odLookup_cons, hp, if_true, Option.some.injEq] at h
        have hpk : p = (k, ts) := Prod.ext hp h
        rw [hpk]
        simp [odRemove, hpk ▸ hp]
      · simp only [odLookup_cons, hp, if_false] at h
        simp only [odRemove, hp, if_false]
        have h1 : List.Perm (p :: rest) (p :: ((k, ts) :: odRemove rest k)) :=
          (ih h).cons p
        have h2 : List.Perm (p :: (k, ts) :: odRemove rest k)
            ((k, ts) :: p :: odRemove rest k) := List.Perm.swap (k, ts) p _
        exact h1.trans h2

theorem nodupKeys_odMoveToEnd (c : List (K × ℤ)) (k : K) (h : NodupKeys c) :
    NodupKeys (odMoveToEnd c k) := by
  unfold odMoveToEnd
  cases hc : odLookup c k with
  | none => exact h
  | some ts =>
      unfold NodupKeys at h ⊢
      have hp1 : List.Perm (odKeys (odRemove c k) ++ [k])
          (k :: odKeys (odRemove c k)) := List.perm_append_singleton _ _
      have hp2 : List.Perm (odKeys ((k, ts) :: odRemove c k)) (odKeys c) :=
        ((perm_odRemove c k ts hc).map Prod.fst).symm
      have hperm : (odKeys (odRemove c k ++ [(k, ts)])).Perm (odKeys c) := by
        rw [odKeys_append]
        exact hp1.trans hp2
      exact hperm.symm.nodup h

/-! ## The classification loop of `LRUCache.get` -/

theorem foldl_inv {α β : Type _} (f : β → α → β) (P : β → Prop)
    (hstep : ∀ b a, P b → P (f b a)) : ∀ (l : List α) (b : β), P b → P (l.foldl f b) := by
  intro l
  induction l with
  | nil => exact fun b hb => hb
  | cons a l ih => exact fun b hb => ih _ (hstep b a hb)

theorem scanStep_eq (t : ℤ) (acc : LRUCache K × List Int × List K × List K) (k : K) :
    LRUCache.scanStep t acc k =
      match odLookup acc.1.cache k with
      | some ts =>
          if acc.1.isExpiredAtTime ts t then
            (acc.1, acc.2.1 ++ [0], acc.2.2.1, acc.2.2.2 ++ [k])
          else
            ({ acc.1 with cache := odMoveToEnd acc.1.cache k, hits := acc.1.hits + 1 },
             acc.2.1 ++ [0], acc.2.2.1, acc.2.2.2)
      | none => (acc.1, acc.2.1 ++ [0], acc.2.2.1 ++ [k], acc.2.2.2) := by
  rcases acc with ⟨s, res, miss, exp⟩
  rfl

/-- The per-call expiry classification of a key, relative to the state at the
start of the call. -/
theorem scanFold_spec (s0 : LRUCache K) (t : ℤ) :
    ∀ (keys : List K) (s : LRUCache K) (res : List Int) (miss exp : List K),
      (∀ k, odLookup s.cache k = odLookup s0.cache k) →
      NodupKeys s.cache →
      s.cache.length = s0.cache.length →
      s.max_size = s0.max_size → s.ttl_seconds = s0.ttl_seconds →
      s.misses = s0.misses → s.bulk_misses = s0.bulk_misses →
      s.evictions = s0.evictions → s.expirations = s0.expirations →
      ((∀ k, odLookup (keys.foldl (LRUCache.scanStep t) (s, res, miss, exp)).1.cache k =
          odLookup s0.cache k) ∧
       NodupKeys (keys.foldl (LRUCache.scanStep t) (s, res, miss, exp)).1.cache ∧
       (keys.foldl (LRUCache.scanStep t) (s, res, miss, exp)).1.cache.length = s0.cache.length ∧
       (keys.foldl (LRUCache.scanStep t) (s, res, miss, exp)).1.max_size = s0.max_size ∧
       (keys.foldl (LRUCache.scanStep t) (s, res, miss, exp)).1.ttl_seconds = s0.ttl_seconds ∧
       (keys.foldl (LRUCache.scanStep t) (s, res, miss, exp)).1.misses = s0.misses ∧
       (keys.foldl (LRUCache.scanStep t) (s, res, miss, exp)).1.bulk_misses = s0.bulk_misses ∧
       (keys.foldl (LRUCache.scanStep t) (s, res, miss, exp)).1.evictions = s0.evictions ∧
       (keys.foldl (LRUCache.scanStep t) (s, res, miss, exp)).1.expirations = s0.expirations ∧
       (keys.foldl (LRUCache.scanStep t) (s, res, miss, exp)).2.1 =
         res ++ List.replicate keys.length 0 ∧
       (keys.foldl (LRUCache.scanStep t) (s, res, miss, exp)).2.2.1 =
         miss ++ keys.filter (fun k => (odLookup s0.cache k).isNone) ∧
       (keys.foldl (LRUCache.scanStep t) (s, res, miss, exp)).2.2.2 =
         exp ++ keys.filter (fun k =>
           match odLookup s0.cache k with
           | some ts => s0.isExpiredAtTime ts t
           | none => false)) := by
  intro keys
  induction keys with
  | nil =>
      intro s res miss exp hlook hnd hlen hms htt hmi hbm hev hex
      simp [hlook, hnd, hlen, hms, htt, hmi, hbm, hev, hex]
  | cons a keys ih =>
      intro s res miss exp hlook hnd hlen hms htt hmi hbm hev hex
      rw [List.foldl_cons, scanStep_eq]
      dsimp only
      have hpred : (LRUCache.isExpiredAtTime s) = (LRUCache.isExpiredAtTime s0) := by
        funext x y
        unfold LRUCache.isExpiredAtTime
        rw [htt]
      cases ha : odLookup s0.cache a with
      | none =>
          simp only [hlook a, ha]
          have := ih s (res ++ [0]) (miss ++ [a]) exp hlook hnd hlen hms htt hmi hbm hev hex
          refine ⟨this.1, this.2.1, this.2.2.1, this.2.2.2.1, this.2.2.2.2.1,
            this.2.2.2.2.2.1, this.2.2.2.2.2.2.1, this.2.2.2.2.2.2.2.1,
            this.2.2.2.2.2.2.2.2.1, ?_, ?_, ?_⟩
          · rw [this.2.2.2.2.2.2.2.2.2.1]
            simp [List.replicate_succ]
          · rw [this.2.2.2.2.2.2.2.2.2.2.1]
            simp [ha]
          · rw [this.2.2.2.2.2.2.2.2.2.2.2]
            simp [ha]
      | some ts =>
          simp only [hlook a, ha, hpred]
          by_cases he : s0.isExpiredAtTime ts t
          · rw [if_pos he]
            have := ih s (res ++ [0]) miss (exp ++ [a]) hlook hnd hlen hms htt hmi hbm hev hex
            refine ⟨this.1, this.2.1, this.2.2.1, this.2.2.2.1, this.2.2.2.2.1,
              this.2.2.2.2.2.1, this.2.2.2.2.2.2.1, this.2.2.2.2.2.2.2.1,
              this.2.2.2.2.2.2.2.2.1, ?_, ?_, ?_⟩
            · rw [this.2.2.2.2.2.2.2.2.2.1]
              simp [List.replicate_succ]
            · rw [this.2.2.2.2.2.2.2.2.2.2.1]
              simp [ha, he]
            · rw [this.2.2.2.2.2.2.2.2.2.2.2]
              simp [ha, he]
          · rw [if_neg he]
            have hlook' : ∀ k,
                odLookup (odMoveToEnd s.cache a) k = odLookup s0.cache k := by
              intro k
              by_cases hk : k = a
              · subst hk
                rw [odLookup_odMoveToEnd_self s.cache k hnd, hlook k]
              · rw [odLookup_odMoveToEnd_ne s.cache a k hk, hlook k]
            have hnd' : NodupKeys (odMoveToEnd s.cache a) :=
              nodupKeys_odMoveToEnd s.cache a hnd
            have hlen' : (odMoveToEnd s.cache a).length = s0.cache.length := by
              rw [length_odMoveToEnd, hlen]
            have := ih { s with cache := odMoveToEnd s.cache a, hits := s.hits + 1 }
              (res ++ [0]) miss exp hlook' hnd' hlen' hms htt hmi hbm hev hex
            refine ⟨this.1, this.2.1, this.2.2.1, this.2.2.2.1, this.2.2.2.2.1,
              this.2.2.2.2.2.1, this.2.2.2.2.2.2.1, this.2.2.2.2.2.2.2.1,
              this.2.2.2.2.2.2.2.2.1, ?_, ?_, ?_⟩
            · rw [this.2.2.2.2.2.2.2.2.2.1]
              simp [List.replicate_succ]
            · rw [this.2.2.2.2.2.2.2.2.2.2.1]
              simp [ha, he]
            · rw [this.2.2.2.2.2.2.2.2.2.2.2]
              simp [ha, he]



/-! ## The insertion and reinsertion loops of `LRUCache.get` -/

theorem addKeysToCache_nil (s : LRUCache K) (t : ℤ) :
    LRUCache.addKeysToCache s [] t = s := rfl

theorem addKeysToCache_cons (s : LRUCache K) (a : K) (keys : List K) (t : ℤ) :
    LRUCache.addKeysToCache s (a :: keys) t =
      LRUCache.addKeysToCache (LRUCache.addOneKey s a t) keys t := rfl

theorem reinsertExpired_nil (s : LRUCache K) (t : ℤ) :
    LRUCache.reinsertExpired s [] t = s := rfl

theorem reinsertExpired_cons (s : LRUCache K) (a : K) (exp : List K) (t : ℤ) :
    LRUCache.reinsertExpired s (a :: exp) t =
      LRUCache.reinsertExpired
        { s with cache := odMoveToEnd (odSet s.cache a t) a,
                 expirations := s.expirations + 1 } exp t := rfl

theorem addOneKey_spec (s : LRUCache K) (a : K) (t : ℤ) (h : NodupKeys s.cache) :
    NodupKeys (LRUCache.addOneKey s a t).cache ∧
    (LRUCache.addOneKey s a t).max_size = s.max_size ∧
    (LRUCache.addOneKey s a t).ttl_seconds = s.ttl_seconds ∧
    (LRUCache.addOneKey s a t).hits = s.hits ∧
    (LRUCache.addOneKey s a t).misses = s.misses ∧
    (LRUCache.addOneKey s a t).bulk_misses = s.bulk_misses ∧
    (LRUCache.addOneKey s a t).expirations = s.expirations ∧
    (1 ≤ s.max_size → (s.cache.length : Int) ≤ s.max_size →
       (((LRUCache.addOneKey s a t).cache.length : Int) ≤ s.max_size)) ∧
    (∀ k v, odLookup (LRUCache.addOneKey s a t).cache k = some v →
       (k = a ∧ v = t) ∨ odLookup s.cache k = some v) := by
  unfold LRUCache.addOneKey
  by_cases hfull : (s.cache.length : Int) ≥ s.max_size
  · rw [if_pos hfull]
    have hnd1 : NodupKeys s.cache.tail := nodupKeys_tail s.cache h
    refine ⟨nodupKeys_odSet _ a t hnd1, rfl, rfl, rfl, rfl, rfl, rfl, ?_, ?_⟩
    · intro hm hlen
      have hne : s.cache.length ≠ 0 := by
        intro h0
        rw [h0] at hfull
        simp only [Nat.cast_zero, ge_iff_le] at hfull
        omega
      have hpos : 1 ≤ s.cache.length := Nat.one_le_iff_ne_zero.mpr hne
      have htailI : (s.cache.tail.length : Int) = (s.cache.length : Int) - 1 := by
        rw [List.length_tail, Nat.cast_sub hpos, Nat.cast_one]
      by_cases hp : (odLookup s.cache.tail a).isSome
      · rw [length_odSet_present _ _ _ hp]
        omega
      · rw [length_odSet_absent _ _ _ (Option.not_isSome_iff_eq_none.mp hp)]
        push_cast
        omega
    · intro k v hv
      by_cases hka : k = a
      · subst hka
        rw [odLookup_odSet_self] at hv
        exact Or.inl ⟨rfl, (Option.some.injEq _ _).mp hv.symm⟩
      · rw [odLookup_odSet_ne _ _ _ _ hka] at hv
        exact Or.inr (odLookup_tail s.cache k v h hv)
  · rw [if_neg hfull]
    refine ⟨nodupKeys_odSet _ a t h, rfl, rfl, rfl, rfl, rfl, rfl, ?_, ?_⟩
    · intro hm hlen
      have hlt : (s.cache.length : Int) < s.max_size := lt_of_not_ge hfull
      by_cases hp : (odLookup s.cache a).isSome
      · rw [length_odSet_present _ _ _ hp]
        exact hlen
      · rw [length_odSet_absent _ _ _ (Option.not_isSome_iff_eq_none.mp hp)]
        push_cast
        omega
    · intro k v hv
      by_cases hka : k = a
      · subst hka
        rw [odLookup_odSet_self] at hv
        exact Or.inl ⟨rfl, (Option.some.injEq _ _).mp hv.symm⟩
      · rw [odLookup_odSet_ne _ _ _ _ hka] at hv
        exact Or.inr hv

theorem addKeysToCache_spec (t : ℤ) :
    ∀ (keys : List K) (s : LRUCache K), NodupKeys s.cache →
      NodupKeys (LRUCache.addKeysToCache s keys t).cache ∧
      (LRUCache.addKeysToCache s keys t).max_size = s.max_size ∧
      (LRUCache.addKeysToCache s keys t).ttl_seconds = s.ttl_seconds ∧
      (LRUCache.addKeysToCache s keys t).hits = s.hits ∧
      (LRUCache.addKeysToCache s keys t).misses = s.misses ∧
      (LRUCache.addKeysToCache s keys t).bulk_misses = s.bulk_misses ∧
      (LRUCache.addKeysToCache s keys t).expirations = s.expirations ∧
      (1 ≤ s.max_size → (s.cache.length : Int) ≤ s.max_size →
         (((LRUCache.addKeysToCache s keys t).cache.length : Int) ≤ s.max_size)) ∧
      (∀ k v, odLookup (LRUCache.addKeysToCache s keys t).cache k = some v →
         (k ∈ keys ∧ v = t) ∨ odLookup s.cache k = some v) := by
  intro keys
  induction keys with
  | nil =>
      intro s h
      rw [addKeysToCache_nil]
      exact ⟨h, rfl, rfl, rfl, rfl, rfl, rfl, fun _ hl => hl,
        fun k v hv => Or.inr hv⟩
  | cons a keys ih =>
      intro s h
      rw [addKeysToCache_cons]
      obtain ⟨a1, a2, a3, a4, a5, a6, a7, a8, a9⟩ := addOneKey_spec s a t h
      obtain ⟨c1, c2, c3, c4, c5, c6, c7, c8, c9⟩ := ih _ a1
      refine ⟨c1, c2.trans a2, c3.trans a3, c4.trans a4, c5.trans a5,
        c6.trans a6, c7.trans a7, ?_, ?_⟩
      · intro hm hlen
        have hstep := a8 hm hlen
        have := c8 (a2.symm ▸ hm) (by rw [a2]; exact hstep)
        rw [a2] at this
        exact this
      · intro k v hv
        rcases c9 k v hv with ⟨hk, hvt⟩ | hrest
        · exact Or.inl ⟨List.mem_cons_of_mem a hk, hvt⟩
        · rcases a9 k v hrest with ⟨hka, hvt⟩ | hold
          · exact Or.inl ⟨hka ▸ List.mem_cons_self a keys, hvt⟩
          · exact Or.inr hold

theorem reinsertExpired_spec (t : ℤ) :
    ∀ (exp : List K) (s : LRUCache K), NodupKeys s.cache →
      (∀ k ∈ exp, (odLookup s.cache k).isSome) →
      NodupKeys (LRUCache.reinsertExpired s exp t).cache ∧
      (LRUCache.reinsertExpired s exp t).max_size = s.max_size ∧
      (LRUCache.reinsertExpired s exp t).ttl_seconds = s.ttl_seconds ∧
      (LRUCache.reinsertExpired s exp t).hits = s.hits ∧
      (LRUCache.reinsertExpired s exp t).misses = s.misses ∧
      (LRUCache.reinsertExpired s exp t).bulk_misses = s.bulk_misses ∧
      (LRUCache.reinsertExpired s exp t).evictions = s.evictions ∧
      (LRUCache.reinsertExpired s exp t).expirations = s.expirations + exp.length ∧
      (LRUCache.reinsertExpired s exp t).cache.length = s.cache.length ∧
      (∀ k, k ∉ exp → odLookup (LRUCache.reinsertExpired s exp t).cache k =
         odLookup s.cache k) ∧
      (∀ k, k ∈ exp → odLookup (LRUCache.reinsertExpired s exp t).cache k = some t) := by
  intro exp
  induction exp with
  | nil =>
      intro s h hmem
      rw [reinsertExpired_nil]
      exact ⟨h, rfl, rfl, rfl, rfl, rfl, rfl, rfl, rfl,
        fun k _ => rfl, fun k hk => absurd hk (List.not_mem_nil k)⟩
  | cons a exp ih =>
      intro s h hmem
      rw [reinsertExpired_cons]
      have ha : (odLookup s.cache a).isSome := hmem a (List.mem_cons_self a exp)
      have hndset : NodupKeys (odSet s.cache a t) := nodupKeys_odSet _ a t h
      have hnd1 : NodupKeys (odMoveToEnd (odSet s.cache a t) a) :=
        nodupKeys_odMoveToEnd _ a hndset
      have hstep : ∀ k, odLookup (odMoveToEnd (odSet s.cache a t) a) k =
          if k = a then some t else odLookup s.cache k := by
        intro k
        by_cases hk : k = a
        · subst hk
          rw [odLookup_odMoveToEnd_self _ _ hndset, odLookup_odSet_self, if_pos rfl]
        · rw [odLookup_odMoveToEnd_ne _ _ _ hk, odLookup_odSet_ne _ _ _ _ hk, if_neg hk]
      have hlenstep : (odMoveToEnd (odSet s.cache a t) a).length = s.cache.length := by
        rw [length_odMoveToEnd, length_odSet_present _ _ _ ha]
      have hmem' : ∀ k ∈ exp, (odLookup (odMoveToEnd (odSet s.cache a t) a) k).isSome := by
        intro k hk
        rw [hstep k]
        by_cases hka : k = a
        · rw [if_pos hka]; rfl
        · rw [if_neg hka]; exact hmem k (List.mem_cons_of_mem a hk)
      obtain ⟨c1, c2, c3, c4, c5, c6, c7, c8, c9, c10, c11⟩ :=
        ih { s with cache := odMoveToEnd (odSet s.cache a t) a,
                    expirations := s.expirations + 1 } hnd1 hmem'
      refine ⟨c1, c2, c3, c4, c5, c6, c7, ?_, ?_, ?_, ?_⟩
      · rw [c8]
        simp only [List.length_cons]
        omega
      · rw [c9, hlenstep]
      · intro k hk
        have hka : k ≠ a := fun hh => hk (hh ▸ List.mem_cons_self a exp)
        have hkexp : k ∉ exp := fun hh => hk (List.mem_cons_of_mem a hh)
        rw [c10 k hkexp, hstep k, if_neg hka]
      · intro k hk
        rcases List.mem_cons.mp hk with hka | hkexp
        · subst hka
          by_cases hke : k ∈ exp
          · exact c11 k hke
          · rw [c10 k hke, hstep k, if_pos rfl]
        · exact c11 k hkexp

/-! ## `LRUCache.get`: results and state -/

theorem scanKeys_spec (s : LRUCache K) (keys : List K) (t : ℤ) (h : NodupKeys s.cache) :
    (∀ k, odLookup (LRUCache.scanKeys s keys t).1.cache k = odLookup s.cache k) ∧
    NodupKeys (LRUCache.scanKeys s keys t).1.cache ∧
    (LRUCache.scanKeys s keys t).1.cache.length = s.cache.length ∧
    (LRUCache.scanKeys s keys t).1.max_size = s.max_size ∧
    (LRUCache.scanKeys s keys t).1.ttl_seconds = s.ttl_seconds ∧
    (LRUCache.scanKeys s keys t).1.misses = s.misses ∧
    (LRUCache.scanKeys s keys t).1.bulk_misses = s.bulk_misses ∧
    (LRUCache.scanKeys s keys t).1.evictions = s.evictions ∧
    (LRUCache.scanKeys s keys t).1.expirations = s.expirations ∧
    (LRUCache.scanKeys s keys t).2.1 = List.replicate keys.length 0 ∧
    (LRUCache.scanKeys s keys t).2.2.1 =
      keys.filter (fun k => (odLookup s.cache k).isNone) ∧
    (LRUCache.scanKeys s keys t).2.2.2 =
      keys.filter (fun k =>
        match odLookup s.cache k with
        | some ts => s.isExpiredAtTime ts t
        | none => false) := by
  have hmain := scanFold_spec s t keys s [] [] []
    (fun k => rfl) h rfl rfl rfl rfl rfl rfl rfl
  unfold LRUCache.scanKeys
  simpa using hmain

theorem scanFold_results (t : ℤ) :
    ∀ (keys : List K) (acc : LRUCache K × List Int × List K × List K),
      (keys.foldl (LRUCache.scanStep t) acc).2.1 =
        acc.2.1 ++ List.replicate keys.length 0 := by
  intro keys
  induction keys with
  | nil => intro acc; simp
  | cons a keys ih =>
      intro acc
      rw [List.foldl_cons, scanStep_eq]
      cases hl : odLookup acc.1.cache a with
      | none =>
          simp only [hl]
          rw [ih]
          simp [List.replicate_succ]
      | some ts =>
          simp only [hl]
          by_cases he : acc.1.isExpiredAtTime ts t
          · rw [if_pos he, ih]
            simp [List.replicate_succ]
          · rw [if_neg he, ih]
            simp [List.replicate_succ]

theorem get_results (s : LRUCache K) (keys : List K) (t : ℤ) :
    (s.get keys t).1 = List.replicate keys.length 0 := by
  by_cases hne : keys = []
  · subst hne
    rfl
  · have hres : (LRUCache.scanKeys s keys t).2.1 = List.replicate keys.length 0 := by
      unfold LRUCache.scanKeys
      simpa using scanFold_results t keys (s, [], [], [])
    unfold LRUCache.get
    rw [if_neg hne]
    rcases hsc : LRUCache.scanKeys s keys t with ⟨s1, res, miss, exp⟩
    rw [hsc] at hres
    dsimp only at hres ⊢
    split
    · exact hres
    · exact hres

theorem batch_get_results (b : BatchRefreshCache K) (keys : List K) (t : ℤ) :
    (BatchRefreshCache.get b keys t).1 = List.replicate keys.length 0 := by
  by_cases hne : keys = []
  · subst hne
    rfl
  · unfold BatchRefreshCache.get
    rw [if_neg hne]
    dsimp only
    rcases hg : LRUCache.get
        { b with refresh_batch :=
            b.refresh_batch ++ BatchRefreshCache.collectNearExpired b keys t }.toLRUCache
        keys t with ⟨res, lru'⟩
    rw [hg]
    have := get_results
      { b with refresh_batch :=
          b.refresh_batch ++ BatchRefreshCache.collectNearExpired b keys t }.toLRUCache
      keys t
    rw [hg] at this
    exact this

/-- Combined state specification of one `LRUCache.get` call: key uniqueness,
configuration stability, the size bound, and the fact that every requested key
still present afterwards carries a timestamp within `ttl` of the request
time. -/
theorem get_state_spec (s : LRUCache K) (keys : List K) (t : ℤ)
    (h : NodupKeys s.cache) :
    NodupKeys (s.get keys t).2.cache ∧
    (s.get keys t).2.max_size = s.max_size ∧
    (s.get keys t).2.ttl_seconds = s.ttl_seconds ∧
    (1 ≤ s.max_size → (s.cache.length : Int) ≤ s.max_size →
       (((s.get keys t).2.cache.length : Int) ≤ s.max_size)) ∧
    (0 ≤ s.ttl_seconds → ∀ k ∈ keys, ∀ v,
       odLookup (s.get keys t).2.cache k = some v → t - v ≤ s.ttl_seconds) := by
  by_cases hne : keys = []
  · subst hne
    refine ⟨h, rfl, rfl, fun _ hl => hl, ?_⟩
    intro _ k hk
    exact absurd hk (List.not_mem_nil k)
  · obtain ⟨g1, g2, g3, g4, g5, g6, g7, g8, g9, g10, g11, g12⟩ :=
      scanKeys_spec s keys t h
    unfold LRUCache.get
    rw [if_neg hne]
    rcases hsc : LRUCache.scanKeys s keys t with ⟨s1, res, miss, exp⟩
    rw [hsc] at g1 g2 g3 g4 g5 g6 g7 g8 g9 g10 g11 g12
    dsimp only at g1 g2 g3 g4 g5 g6 g7 g8 g9 g10 g11 g12 ⊢
    by_cases hzero : miss.length + exp.length = 0
    · rw [if_pos hzero]
      have hmiss : miss = [] := List.length_eq_zero.mp (by omega)
      have hexp : exp = [] := List.length_eq_zero.mp (by omega)
      refine ⟨g2, g4, g5, fun _ hl => by rw [g3]; exact hl, ?_⟩
      intro httl k hk v hv
      rw [g1 k] at hv
      have hnm : ¬ (odLookup s.cache k).isNone := by
        intro hn
        have : k ∈ miss := by
          rw [g11]
          exact List.mem_filter.mpr ⟨hk, hn⟩
        rw [hmiss] at this
        exact absurd this (List.not_mem_nil k)
      have hnexp : ¬ (s.isExpiredAtTime v t = true) := by
        intro hx
        have : k ∈ exp := by
          rw [g12]
          refine List.mem_filter.mpr ⟨hk, ?_⟩
          rw [hv]
          exact hx
        rw [hexp] at this
        exact absurd this (List.not_mem_nil k)
      unfold LRUCache.isExpiredAtTime at hnexp
      simp only [decide_eq_true_eq, not_lt] at hnexp
      exact hnexp
    · rw [if_neg hzero]
      have hexpmem : ∀ k ∈ exp, (odLookup s1.cache k).isSome := by
        intro k hk
        rw [g1 k]
        rw [g12] at hk
        have hp := List.of_mem_filter hk
        cases hl : odLookup s.cache k with
        | none => rw [hl] at hp; simp at hp
        | some ts => rfl
      obtain ⟨r1, r2, r3, r4, r5, r6, r7, r8, r9, r10, r11⟩ :=
        reinsertExpired_spec t exp s1 g2 hexpmem
      by_cases hm : miss = []
      · rw [if_pos hm]
        refine ⟨r1, r2.trans g4, r3.trans g5, ?_, ?_⟩
        · intro hmax hlen
          rw [r9, g3]
          exact hlen
        · intro httl k hk v hv
          by_cases hke : k ∈ exp
          · rw [r11 k hke] at hv
            obtain rfl : t = v := (Option.some.injEq _ _).mp hv
            simpa using httl
          · rw [r10 k hke, g1 k] at hv
            have hnexp : ¬ (s.isExpiredAtTime v t = true) := by
              intro hx
              refine hke ?_
              rw [g12]
              refine List.mem_filter.mpr ⟨hk, ?_⟩
              rw [hv]
              exact hx
            unfold LRUCache.isExpiredAtTime at hnexp
            simp only [decide_eq_true_eq, not_lt] at hnexp
            exact hnexp
      · rw [if_neg hm]
        obtain ⟨a1, a2, a3, a4, a5, a6, a7, a8, a9⟩ :=
          addKeysToCache_spec t miss (LRUCache.reinsertExpired s1 exp t) r1
        refine ⟨a1, a2.trans (r2.trans g4), a3.trans (r3.trans g5), ?_, ?_⟩
        · intro hmax hlen
          have hmax2 : 1 ≤ (LRUCache.reinsertExpired s1 exp t).max_size := by
            rw [r2, g4]
            exact hmax
          have hlen2 : (((LRUCache.reinsertExpired s1 exp t).cache.length : Int) ≤
              (LRUCache.reinsertExpired s1 exp t).max_size) := by
            rw [r9, g3, r2, g4]
            exact hlen
          have := a8 hmax2 hlen2
          rw [r2, g4] at this
          exact this
        · intro httl k hk v hv
          rcases a9 k v hv with ⟨hkm, rfl⟩ | hs2
          · simpa using httl
          · by_cases hke : k ∈ exp
            · rw [r11 k hke] at hs2
              obtain rfl : t = v := (Option.some.injEq _ _).mp hs2
              simpa using httl
            · rw [r10 k hke, g1 k] at hs2
              have hnexp : ¬ (s.isExpiredAtTime v t = true) := by
                intro hx
                refine hke ?_
                rw [g12]
                refine List.mem_filter.mpr ⟨hk, ?_⟩
                rw [hs2]
                exact hx
              unfold LRUCache.isExpiredAtTime at hnexp
              simp only [decide_eq_true_eq, not_lt] at hnexp
              exact hnexp

/-- A single-key lookup of a present, unexpired key: the entry is promoted to
most-recently-touched, `hits` is incremented, and nothing else changes — in
particular the stored timestamp is untouched. -/
theorem get_single_hit (s : LRUCache K) (k : K) (t ts : ℤ)
    (h : odLookup s.cache k = some ts) (hexp : s.isExpiredAtTime ts t = false) :
    s.get [k] t = ([0], { s with cache := odMoveToEnd s.cache k,
                                 hits := s.hits + 1 }) := by
  unfold LRUCache.get LRUCache.scanKeys
  rw [List.foldl_cons, List.foldl_nil, scanStep_eq]
  simp only [h, hexp]
  rfl

/-- A single-key lookup of a present, expired key: the entry is reinserted
with timestamp `t`, promoted, and the expiration / miss counters advance. -/
theorem get_single_expired (s : LRUCache K) (k : K) (t ts : ℤ)
    (h : odLookup s.cache k = some ts) (hexp : s.isExpiredAtTime ts t = true) :
    s.get [k] t = ([0],
      { s with cache := odMoveToEnd (odSet s.cache k t) k,
               expirations := s.expirations + 1,
               misses := s.misses + 1,
               bulk_misses := s.bulk_misses + 1 }) := by
  unfold LRUCache.get LRUCache.scanKeys
  rw [List.foldl_cons, List.foldl_nil, scanStep_eq]
  simp only [h, hexp, if_true]
  rfl

/-- A single-key lookup of an absent key: the key is inserted via
`addOneKey` and the miss counters advance. -/
theorem get_single_miss (s : LRUCache K) (k : K) (t : ℤ)
    (h : odLookup s.cache k = none) :
    s.get [k] t = ([0],
      { LRUCache.addOneKey s k t with
          misses := (LRUCache.addOneKey s k t).misses + 1,
          bulk_misses := (LRUCache.addOneKey s k t).bulk_misses + 1 }) := by
  unfold LRUCache.get LRUCache.scanKeys
  rw [List.foldl_cons, List.foldl_nil, scanStep_eq]
  simp only [h]
  rfl

/-- Invariant preservation along a replayed call sequence. -/
theorem run_inv (M : Int) :
    ∀ (calls : List (List K × ℤ)) (s : LRUCache K),
      NodupKeys s.cache → s.max_size = M → (s.cache.length : Int) ≤ M → 1 ≤ M →
      NodupKeys (s.run calls).cache ∧ (s.run calls).max_size = M ∧
      ((s.run calls).cache.length : Int) ≤ M := by
  intro calls
  induction calls with
  | nil =>
      intro s h1 h2 h3 h4
      exact ⟨h1, h2, h3⟩
  | cons c calls ih =>
      intro s h1 h2 h3 h4
      obtain ⟨p1, p2, p3, p4, p5⟩ := get_state_spec s c.1 c.2 h1
      have hrun : s.run (c :: calls) = ((s.get c.1 c.2).2).run calls := rfl
      rw [hrun]
      have hlen' : (((s.get c.1 c.2).2.cache.length : Int)) ≤ M := by
        have hh := p4 (by rw [h2]; exact h4) (by rw [h2]; exact h3)
        rw [h2] at hh
        exact hh
      exact ih _ p1 (p2.trans h2) hlen' h4

/-! ## Behaviour of a call whose keys are all absent (pure insertion) -/

theorem odLookup_tail_none (c : List (K × ℤ)) (k : K) (h : odLookup c k = none) :
    odLookup c.tail k = none := by
  rw [odLookup_eq_none_iff] at h ⊢
  intro hmem
  exact h (List.Sublist.subset (List.Sublist.map Prod.fst (List.tail_sublist c)) hmem)

theorem scanFold_all_absent (t : ℤ) :
    ∀ (keys : List K) (s : LRUCache K) (res : List Int) (miss exp : List K),
      (∀ k ∈ keys, odLookup s.cache k = none) →
      keys.foldl (LRUCache.scanStep t) (s, res, miss, exp) =
        (s, res ++ List.replicate keys.length 0, miss ++ keys, exp) := by
  intro keys
  induction keys with
  | nil => intro s res miss exp h; simp
  | cons a keys ih =>
      intro s res miss exp h
      rw [List.foldl_cons, scanStep_eq]
      simp only [h a (List.mem_cons_self a keys)]
      rw [ih s _ _ _ (fun k hk => h k (List.mem_cons_of_mem a hk))]
      simp [List.replicate_succ]

theorem addKeysToCache_full (t : ℤ) :
    ∀ (keys : List K) (s : LRUCache K),
      keys.Nodup → (∀ k ∈ keys, odLookup s.cache k = none) →
      (s.cache.length : Int) = s.max_size → 1 ≤ s.max_size →
      (keys.length : Int) ≤ s.max_size →
      (LRUCache.addKeysToCache s keys t).cache =
        s.cache.drop keys.length ++ keys.map (fun k => (k, t)) ∧
      (LRUCache.addKeysToCache s keys t).evictions = s.evictions + keys.length := by
  intro keys
  induction keys with
  | nil =>
      intro s hnd habs hfull hmax hlen
      rw [addKeysToCache_nil]
      simp
  | cons a keys ih =>
      intro s hnd habs hfull hmax hlen
      have hfullge : (s.cache.length : Int) ≥ s.max_size := ge_of_eq hfull
      have hpos : 1 ≤ s.cache.length := by
        by_contra hc
        have h0 : s.cache.length = 0 := by omega
        rw [h0] at hfull
        simp only [Nat.cast_zero] at hfull
        omega
      have ha : odLookup s.cache a = none := habs a (List.mem_cons_self a keys)
      have hatail : odLookup s.cache.tail a = none := odLookup_tail_none s.cache a ha
      have hset : odSet s.cache.tail a t = s.cache.tail ++ [(a, t)] := by
        unfold odSet
        rw [if_neg (by simp [hatail])]
      have hstep : LRUCache.addOneKey s a t =
          { s with cache := s.cache.tail ++ [(a, t)],
                   evictions := s.evictions + 1 } := by
        unfold LRUCache.addOneKey
        rw [if_pos hfullge, hset]
      rw [addKeysToCache_cons, hstep]
      have htaillen : s.cache.tail.length = s.cache.length - 1 := List.length_tail s.cache
      have hlen2 : (s.cache.tail ++ [(a, t)]).length = s.cache.length := by
        simp only [List.length_append, List.length_singleton, htaillen]
        omega
      have hnd2 : keys.Nodup := (List.nodup_cons.mp hnd).2
      have hanotin : a ∉ keys := (List.nodup_cons.mp hnd).1
      have habs2 : ∀ k ∈ keys, odLookup (s.cache.tail ++ [(a, t)]) k = none := by
        intro k hk
        have hk1 : odLookup s.cache.tail k = none :=
          odLookup_tail_none s.cache k (habs k (List.mem_cons_of_mem a hk))
        rw [odLookup_append_right _ _ _ hk1]
        have : a ≠ k := fun hh => hanotin (hh ▸ hk)
        simp [this]
      have hfull2 : (((s.cache.tail ++ [(a, t)]).length : Int)) = s.max_size := by
        rw [hlen2]
        exact hfull
      have hlen3 : (keys.length : Int) ≤ s.max_size := by
        simp only [List.length_cons, Nat.cast_add, Nat.cast_one] at hlen
        omega
      obtain ⟨hc, hev⟩ := ih
        { s with cache := s.cache.tail ++ [(a, t)], evictions := s.evictions + 1 }
        hnd2 habs2 hfull2 hmax hlen3
      constructor
      · rw [hc]
        dsimp only
        have hklen : keys.length ≤ s.cache.tail.length := by
          have hci : (s.cache.length : Int) = s.max_size := hfull
          have : keys.length + 1 ≤ s.cache.length := by
            have := hlen
            simp only [List.length_cons, Nat.cast_add, Nat.cast_one] at this
            omega
          omega
        rw [List.drop_append_of_le_length hklen]
        have hdt : s.cache.tail.drop keys.length = s.cache.drop (keys.length + 1) := by
          rw [← List.drop_one, List.drop_drop, Nat.add_comm]
        rw [hdt]
        simp [List.length_cons]
      · rw [hev]
        dsimp only
        simp only [List.length_cons]
        omega

/-! ## Claim theorems -/

/-- C1, counterexample: on a full cache of capacity 1 holding key 10, the call
`get [20, 20]` performs TWO evictions although inserting the single distinct
absent key 20 requires only one — the second occurrence of 20 evicts the
just-inserted entry for 20 itself.  This refutes "no more evictions are
performed than insertions of keys not already present require, even when the
same absent key occurs more than once in the input list". -/
theorem C1_counterexample :
    (LRUCache.init Nat 1 100).toOption.map (fun s0 =>
      ((((s0.get [10] 0).2.get [20, 20] 0).2.evictions),
       (((s0.get [10] 0).2.get [20, 20] 0).2.cache))) = some (2, [(20, 0)]) := by
  decide

/-- C1, amended: on a full cache (`size = max_size`), a bulk lookup whose keys
are pairwise distinct and all absent evicts exactly one entry per insertion,
namely the least-recently-touched ones (the front of the recency order), and
removes nothing else: the final cache is the old cache with its
`keys.length` oldest entries dropped, followed by the new entries in request
order, and `evictions` grows by exactly `keys.length`. -/
theorem C1_theorem (s : LRUCache K) (keys : List K) (t : ℤ)
    (hnodup : keys.Nodup) (habsent : ∀ k ∈ keys, odLookup s.cache k = none)
    (hfull : (s.cache.length : Int) = s.max_size) (hmax : 1 ≤ s.max_size)
    (hkeys : (keys.length : Int) ≤ s.max_size) :
    (s.get keys t).2.cache =
      s.cache.drop keys.length ++ keys.map (fun k => (k, t)) ∧
    (s.get keys t).2.evictions = s.evictions + keys.length := by
  by_cases hne : keys = []
  · subst hne
    simp [LRUCache.get]
  · unfold LRUCache.get
    rw [if_neg hne]
    have hscan : LRUCache.scanKeys s keys t =
        (s, List.replicate keys.length 0, keys, []) := by
      unfold LRUCache.scanKeys
      simpa using scanFold_all_absent t keys s [] [] [] habsent
    rw [hscan]
    dsimp only
    have hkl : ¬ (keys.length + 0 = 0) := by
      intro h0
      exact hne (List.length_eq_zero.mp (by omega))
    rw [if_neg (by simpa using hkl), reinsertExpired_nil, if_neg hne]
    obtain ⟨hc, hev⟩ := addKeysToCache_full t keys s hnodup habsent hfull hmax hkeys
    exact ⟨hc, hev⟩

/-- C1, witness for the amended theorem at a concrete input. -/
theorem C1_witness :
    (({ max_size := 2, ttl_seconds := 100, cache := [(1, 0), (2, 0)], hits := 0,
        misses := 0, bulk_misses := 0, evictions := 0,
        expirations := 0 } : LRUCache Nat).get [3, 4] 1).2.cache =
      [((1 : Nat), (0 : ℤ)), (2, 0)].drop 2 ++ [3, 4].map (fun k => (k, 1)) ∧
    (({ max_size := 2, ttl_seconds := 100, cache := [(1, 0), (2, 0)], hits := 0,
        misses := 0, bulk_misses := 0, evictions := 0,
        expirations := 0 } : LRUCache Nat).get [3, 4] 1).2.evictions = 0 + 2 :=
  C1_theorem _ [3, 4] 1 (by decide) (by decide) (by decide) (by decide) (by decide)

/-- C2: starting from a freshly constructed cache with `max_size ≥ 1`, after
replaying any sequence of bulk lookups the number of held entries is at most
`max_size`.  (Quantifying over all call sequences covers "immediately after
every call": every prefix of a sequence is itself a sequence.) -/
theorem C2_theorem (max_size : Int) (ttl : ℤ) (calls : List (List K × ℤ))
    (hmax : 1 ≤ max_size) (s0 : LRUCache K)
    (hinit : LRUCache.init K max_size ttl = .ok s0) :
    ((s0.run calls).cache.length : Int) ≤ max_size := by
  have hs0 : s0 = { max_size := max_size, ttl_seconds := ttl, cache := [],
                    hits := 0, misses := 0, bulk_misses := 0, evictions := 0,
                    expirations := 0 } := by
    unfold LRUCache.init at hinit
    exact (Except.ok.inj hinit).symm
  subst hs0
  exact (run_inv max_size calls
    { max_size := max_size, ttl_seconds := ttl, cache := [], hits := 0,
      misses := 0, bulk_misses := 0, evictions := 0, expirations := 0 }
    (by simp [NodupKeys, odKeys]) rfl
    (by simp only [List.length_nil, Nat.cast_zero]; omega) hmax).2.2

/-- C2, witness at a concrete input. -/
theorem C2_witness :
    ((({ max_size := 2, ttl_seconds := 10, cache := [], hits := 0, misses := 0,
         bulk_misses := 0, evictions := 0,
         expirations := 0 } : LRUCache Nat).run [([1, 2, 3], 0)]).cache.length : Int) ≤ 2 :=
  C2_theorem 2 10 [([1, 2, 3], 0)] (by decide) _ rfl

/-- C3: for a present entry with timestamp `ts`, a lookup at
`t = ts + ttl` exactly (boundary equality) is recorded as a hit and not as an
expiration, and a lookup at any `t > ts + ttl` is recorded as an expiration
and not as a hit. -/
theorem C3_theorem (s : LRUCache K) (k : K) (t ts : ℤ)
    (h : odLookup s.cache k = some ts) :
    (t - ts = s.ttl_seconds →
       (s.get [k] t).2.hits = s.hits + 1 ∧
       (s.get [k] t).2.expirations = s.expirations) ∧
    (t - ts > s.ttl_seconds →
       (s.get [k] t).2.expirations = s.expirations + 1 ∧
       (s.get [k] t).2.hits = s.hits) := by
  constructor
  · intro heq
    have hexp : s.isExpiredAtTime ts t = false := by
      unfold LRUCache.isExpiredAtTime
      simp [heq]
    rw [get_single_hit s k t ts h hexp]
    exact ⟨rfl, rfl⟩
  · intro hgt
    have hexp : s.isExpiredAtTime ts t = true := by
      unfold LRUCache.isExpiredAtTime
      simpa using hgt
    rw [get_single_expired s k t ts h hexp]
    exact ⟨rfl, rfl⟩

/-- C3, witness: key 5 stored at time 0 with `ttl = 10`; the lookup at `t = 10`
is a hit, the lookup at `t = 11` is an expiration. -/
theorem C3_witness :
    ((({ max_size := 5, ttl_seconds := 10, cache := [(5, 0)], hits := 0,
         misses := 0, bulk_misses := 0, evictions := 0,
         expirations := 0 } : LRUCache Nat).get [5] 10).2.hits = 0 + 1 ∧
     (({ max_size := 5, ttl_seconds := 10, cache := [(5, 0)], hits := 0,
         misses := 0, bulk_misses := 0, evictions := 0,
         expirations := 0 } : LRUCache Nat).get [5] 10).2.expirations = 0) ∧
    ((({ max_size := 5, ttl_seconds := 10, cache := [(5, 0)], hits := 0,
         misses := 0, bulk_misses := 0, evictions := 0,
         expirations := 0 } : LRUCache Nat).get [5] 11).2.expirations = 0 + 1 ∧
     (({ max_size := 5, ttl_seconds := 10, cache := [(5, 0)], hits := 0,
         misses := 0, bulk_misses := 0, evictions := 0,
         expirations := 0 } : LRUCache Nat).get [5] 11).2.hits = 0) :=
  ⟨(C3_theorem _ 5 10 0 (by decide)).1 (by norm_num),
   (C3_theorem _ 5 11 0 (by decide)).2 (by norm_num)⟩

/-- C4, counterexample: constructing with `max_size = 0`, `ttl = -1`,
`half_ttl_fraction = 2` and `batch_threshold = 0` — all outside the claimed
valid ranges — succeeds and produces a cache object; no `InvalidConfiguration`
failure exists anywhere in the code. -/
theorem C4_counterexample :
    (LRUCache.init Nat 0 (-1)).isOk = true ∧
    (BatchRefreshCache.init Nat 0 (-1) 2 0).isOk = true :=
  ⟨rfl, rfl⟩

/-- C4, amended: neither constructor validates its parameters; construction
always succeeds, for every `max_size`, `ttl`, `half_ttl_fraction` and
`batch_threshold`, in or out of range. -/
theorem C4_theorem (max_size : Int) (ttl : ℤ) (half_ttl_fraction : ℚ)
    (batch_threshold : Int) :
    (LRUCache.init K max_size ttl).isOk = true ∧
    (BatchRefreshCache.init K max_size ttl half_ttl_fraction
      batch_threshold).isOk = true :=
  ⟨rfl, rfl⟩

/-- C7, counterexample: key 1 inserted at time 0 into a cache with
`ttl = 10`; the hit at time 5 increments `hits` but leaves the stored
timestamp at 0 rather than resetting it to 5 — a hit promotes the entry but
does NOT reset its timestamp. -/
theorem C7_counterexample :
    ((LRUCache.init Nat 10 10).toOption.map (fun s0 =>
      ((((s0.get [1] 0).2.get [1] 5).2.hits),
       odLookup (((s0.get [1] 0).2.get [1] 5).2.cache) 1)) = some (1, some 0)) ∧
    ¬ ((0 : ℤ) = 5) := by
  constructor
  · decide
  · norm_num

/-- C7, amended: a hit on a present, unexpired entry increments `hits` and
promotes the entry to most-recently-touched (it moves to the back of the
recency order) but leaves its stored timestamp unchanged; only
expiration-triggered reinsertion and batch refresh reset timestamps. -/
theorem C7_theorem (s : LRUCache K) (k : K) (t ts : ℤ) (hnd : NodupKeys s.cache)
    (h : odLookup s.cache k = some ts) (hfresh : s.isExpiredAtTime ts t = false) :
    (s.get [k] t).2.hits = s.hits + 1 ∧
    (s.get [k] t).2.cache = odRemove s.cache k ++ [(k, ts)] ∧
    odLookup (s.get [k] t).2.cache k = some ts := by
  rw [get_single_hit s k t ts h hfresh]
  refine ⟨rfl, ?_, ?_⟩
  · dsimp only
    unfold odMoveToEnd
    rw [h]
  · dsimp only
    rw [odLookup_odMoveToEnd_self _ _ hnd, h]

/-- C7, witness at a concrete input. -/
theorem C7_witness :
    (({ max_size := 5, ttl_seconds := 10, cache := [(1, 0), (2, 3)], hits := 0,
        misses := 0, bulk_misses := 0, evictions := 0,
        expirations := 0 } : LRUCache Nat).get [1] 5).2.hits = 0 + 1 ∧
    (({ max_size := 5, ttl_seconds := 10, cache := [(1, 0), (2, 3)], hits := 0,
        misses := 0, bulk_misses := 0, evictions := 0,
        expirations := 0 } : LRUCache Nat).get [1] 5).2.cache =
      odRemove [((1 : Nat), (0 : ℤ)), (2, 3)] 1 ++ [(1, 0)] ∧
    odLookup
      (({ max_size := 5, ttl_seconds := 10, cache := [(1, 0), (2, 3)],
          hits := 0, misses := 0, bulk_misses := 0, evictions := 0,
          expirations := 0 } : LRUCache Nat).get [1] 5).2.cache 1 = some 0 :=
  C7_theorem _ 1 5 0 (by decide) (by decide) (by decide)

/-- C8, counterexample: after one miss and one hit the snapshot's hit-rate
field is `50` (a percentage), not `hits / (hits + misses) = 1/2`. -/
theorem C8_counterexample :
    ((LRUCache.init Nat 5 10).toOption.map (fun s0 =>
       ((s0.get [1] 0).2.get [1] 0).2) =
      some { max_size := 5, ttl_seconds := 10, cache := [(1, 0)], hits := 1,
             misses := 1, bulk_misses := 1, evictions := 0, expirations := 0 }) ∧
    ({ max_size := 5, ttl_seconds := 10, cache := [(1, 0)], hits := 1,
       misses := 1, bulk_misses := 1, evictions := 0,
       expirations := 0 } : LRUCache Nat).getStats.hit_rate_percent = 50 ∧
    ¬ ((50 : ℚ) = 1 / (1 + 1)) := by
  refine ⟨by decide, ?_, by norm_num⟩
  norm_num [LRUCache.getStats]

/-- C8, amended: the snapshot's hit-rate field (`hit_rate_percent`) equals
`hits / (hits + misses) * 100` when `hits + misses` is nonzero, and `0`
otherwise. -/
theorem C8_theorem (s : LRUCache K) :
    (0 < s.hits + s.misses →
       s.getStats.hit_rate_percent =
         (s.hits : ℚ) / (((s.hits : Nat) + s.misses : Nat) : ℚ) * 100) ∧
    (s.hits + s.misses = 0 → s.getStats.hit_rate_percent = 0) := by
  unfold LRUCache.getStats
  constructor
  · intro hpos
    simp only [hpos, if_true]
  · intro hzero
    simp [hzero]

/-- C8, witness at a concrete input (both branches of the amended claim). -/
theorem C8_witness :
    (({ max_size := 5, ttl_seconds := 10, cache := [], hits := 3, misses := 1,
        bulk_misses := 1, evictions := 0,
        expirations := 0 } : LRUCache Nat).getStats.hit_rate_percent =
      ((3 : Nat) : ℚ) / ((((3 : Nat) + 1 : Nat)) : ℚ) * 100) ∧
    (({ max_size := 5, ttl_seconds := 10, cache := [], hits := 0, misses := 0,
        bulk_misses := 0, evictions := 0,
        expirations := 0 } : LRUCache Nat).getStats.hit_rate_percent = 0) :=
  ⟨(C8_theorem _).1 (by decide), (C8_theorem _).2 (by decide)⟩

/-- C9, counterexample: with `ttl = 10`, key 1 is inserted at time 0; the call
`get [2]` at time 20 leaves key 1 present in the cache, yet the immediately
following `get [1]` at the same logical time 20 is recorded as an expiration
(`hits` stays 0, `expirations` becomes 1), not as a hit: presence after a
call does not imply a hit for keys the call did not request. -/
theorem C9_counterexample :
    (LRUCache.init Nat 3 10).toOption.map (fun s0 =>
      ((odLookup ((s0.get [1] 0).2.get [2] 20).2.cache 1).isSome,
       ((((s0.get [1] 0).2.get [2] 20).2.get [1] 20).2.hits),
       ((((s0.get [1] 0).2.get [2] 20).2.get [1] 20).2.expirations))) =
      some (true, 0, 1) := by
  decide

/-- C9, amended: a key that was **requested** in a bulk lookup at logical time
`t` and is present immediately afterwards is recorded as a hit by an
immediately following lookup at the same time `t` (for a key-unique cache and
a nonnegative ttl). -/
theorem C9_theorem (s : LRUCache K) (keys : List K) (t : ℤ) (k : K)
    (hnd : NodupKeys s.cache) (httl : 0 ≤ s.ttl_seconds) (hk : k ∈ keys)
    (hpresent : (odLookup (s.get keys t).2.cache k).isSome) :
    ((s.get keys t).2.get [k] t).2.hits = (s.get keys t).2.hits + 1 := by
  obtain ⟨p1, p2, p3, p4, p5⟩ := get_state_spec s keys t hnd
  obtain ⟨ts, hts⟩ := Option.isSome_iff_exists.mp hpresent
  have hage : t - ts ≤ s.ttl_seconds := p5 httl k hk ts hts
  have hfresh : (s.get keys t).2.isExpiredAtTime ts t = false := by
    unfold LRUCache.isExpiredAtTime
    rw [p3]
    simpa using hage
  rw [get_single_hit _ k t ts hts hfresh]

/-- C9, witness at a concrete input. -/
theorem C9_witness :
    ((({ max_size := 3, ttl_seconds := 10, cache := [], hits := 0, misses := 0,
         bulk_misses := 0, evictions := 0,
         expirations := 0 } : LRUCache Nat).get [7] 3).2.get [7] 3).2.hits =
      (({ max_size := 3, ttl_seconds := 10, cache := [], hits := 0, misses := 0,
          bulk_misses := 0, evictions := 0,
          expirations := 0 } : LRUCache Nat).get [7] 3).2.hits + 1 :=
  C9_theorem _ [7] 3 7 (by decide) (by decide) (by decide) (by decide)

/-- C10: every bulk lookup, on the base cache and on the batch layer, returns
one flag per requested key (positionally aligned) and that flag is always the
constant `0`: the return value never distinguishes hits, misses and
expirations. -/
theorem C10_theorem (s : LRUCache K) (b : BatchRefreshCache K)
    (keys : List K) (t : ℤ) :
    (s.get keys t).1 = List.replicate keys.length 0 ∧
    (s.get keys t).1.length = keys.length ∧
    (∀ x ∈ (s.get keys t).1, x = 0) ∧
    (BatchRefreshCache.get b keys t).1 = List.replicate keys.length 0 ∧
    (BatchRefreshCache.get b keys t).1.length = keys.length ∧
    (∀ x ∈ (BatchRefreshCache.get b keys t).1, x = 0) := by
  have h1 := get_results s keys t
  have h2 := batch_get_results b keys t
  refine ⟨h1, ?_, ?_, h2, ?_, ?_⟩
  · rw [h1]; simp
  · rw [h1]; intro x hx; exact List.eq_of_mem_replicate hx
  · rw [h2]; simp
  · rw [h2]; intro x hx; exact List.eq_of_mem_replicate hx

/-! ## The batch refresh layer -/

theorem collectFold (s : BatchRefreshCache K) (t : ℤ) :
    ∀ (keys : List K) (acc : List K),
      keys.foldl
        (fun acc k =>
          match odLookup s.cache k with
          | none => acc
          | some ts =>
              if s.isExpiredAtTime ts t then acc
              else if s.isNearExpiration ts t then
                if k ∈ s.refresh_batch then acc else acc ++ [k]
              else acc)
        acc = acc ++ keys.filter (BatchRefreshCache.shouldEnqueue s t) := by
  intro keys
  induction keys with
  | nil => intro acc; simp
  | cons a keys ih =>
      intro acc
      rw [List.foldl_cons]
      have hstep :
          (match odLookup s.cache a with
           | none => acc
           | some ts =>
               if s.isExpiredAtTime ts t then acc
               else if s.isNearExpiration ts t then
                 if a ∈ s.refresh_batch then acc else acc ++ [a]
               else acc) =
            if BatchRefreshCache.shouldEnqueue s t a then acc ++ [a] else acc := by
        unfold BatchRefreshCache.shouldEnqueue
        cases hl : odLookup s.cache a with
        | none => simp
        | some ts =>
            by_cases he : s.isExpiredAtTime ts t
            · simp [he]
            · by_cases hn : s.isNearExpiration ts t
              · by_cases hb : a ∈ s.refresh_batch <;> simp [he, hn, hb]
              · simp [he, hn]
      rw [hstep]
      by_cases hq : BatchRefreshCache.shouldEnqueue s t a
      · rw [if_pos hq, ih]
        simp [List.filter_cons, hq]
      · rw [if_neg hq, ih]
        simp [List.filter_cons, hq]

theorem collectNearExpired_eq_filter (s : BatchRefreshCache K)
    (keys : List K) (t : ℤ) :
    BatchRefreshCache.collectNearExpired s keys t =
      keys.filter (BatchRefreshCache.shouldEnqueue s t) := by
  unfold BatchRefreshCache.collectNearExpired
  simpa using collectFold s t keys []

theorem processRefreshBatch_queue (s : BatchRefreshCache K) (t : ℤ) :
    (s.processRefreshBatch t).refresh_batch = [] ∨
    (s.processRefreshBatch t).refresh_batch = s.refresh_batch := by
  unfold BatchRefreshCache.processRefreshBatch
  by_cases h : (s.refresh_batch.length : Int) ≥ s.max_request_size
  · rw [if_pos h]
    exact Or.inl rfl
  · rw [if_neg h]
    exact Or.inr rfl

/-- One `BatchRefreshCache.get` call keeps the refresh queue duplicate-free,
provided the requested key list has no duplicates. -/
theorem batch_get_queue_nodup (b : BatchRefreshCache K) (keys : List K) (t : ℤ)
    (hq : b.refresh_batch.Nodup) (hk : keys.Nodup) :
    (BatchRefreshCache.get b keys t).2.refresh_batch.Nodup := by
  by_cases hne : keys = []
  · subst hne
    simpa [BatchRefreshCache.get] using hq
  · unfold BatchRefreshCache.get
    rw [if_neg hne]
    dsimp only
    rcases hg : LRUCache.get
        { b with refresh_batch :=
            b.refresh_batch ++ BatchRefreshCache.collectNearExpired b keys t }.toLRUCache
        keys t with ⟨res, lru'⟩
    rw [hg]
    dsimp only
    have hq2 : (b.refresh_batch ++ BatchRefreshCache.collectNearExpired b keys t).Nodup := by
      rw [collectNearExpired_eq_filter]
      rw [List.nodup_append]
      refine ⟨hq, hk.filter _, ?_⟩
      intro x hx hxf
      have hp := List.of_mem_filter hxf
      unfold BatchRefreshCache.shouldEnqueue at hp
      cases hl : odLookup b.cache x with
      | none => rw [hl] at hp; simp at hp
      | some ts =>
          rw [hl] at hp
          by_cases he : b.isExpiredAtTime ts t
          · simp [he] at hp
          · by_cases hn : b.isNearExpiration ts t
            · simp [he, hn] at hp
              exact hp hx
            · simp [he, hn] at hp
    rcases processRefreshBatch_queue
        { toLRUCache := lru',
          half_ttl := b.half_ttl, max_request_size := b.max_request_size,
          half_ttl_seconds := b.half_ttl_seconds,
          refresh_batch := b.refresh_batch ++ BatchRefreshCache.collectNearExpired b keys t,
          batch_updates := b.batch_updates } t with hcase | hcase
    · rw [hcase]
      exact List.nodup_nil
    · rw [hcase]
      exact hq2

theorem run_queue_nodup :
    ∀ (calls : List (List K × ℤ)) (b : BatchRefreshCache K),
      b.refresh_batch.Nodup → (∀ c ∈ calls, c.1.Nodup) →
      (BatchRefreshCache.run b calls).refresh_batch.Nodup := by
  intro calls
  induction calls with
  | nil => intro b hb _; exact hb
  | cons c calls ih =>
      intro b hb hc
      have hstep := batch_get_queue_nodup b c.1 c.2 hb
        (hc c (List.mem_cons_self c calls))
      exact ih _ hstep (fun d hd => hc d (List.mem_cons_of_mem c hd))

/-- C6, counterexample: `ttl = 10`, `half_ttl_fraction = 1/2`,
`batch_threshold = 3`; key 1 is inserted at time 0 and the single call
`get [1, 1]` at time 6 (when key 1 is near expiry) enqueues key 1 TWICE: the
"skip if already queued" test only consults the queue as it was at the start
of the call, so a key repeated within one call's key list is double-enqueued. -/
theorem C6_counterexample :
    ((BatchRefreshCache.init Nat 10 10 (1 / 2) 3).toOption.map
        (fun b0 => (b0.get [1] 0).2) =
      some { max_size := 10, ttl_seconds := 10, cache := [(1, 0)], hits := 0,
             misses := 1, bulk_misses := 1, evictions := 0, expirations := 0,
             half_ttl := 1 / 2, max_request_size := 3,
             half_ttl_seconds := ((10 : ℤ) : ℚ) * (1 / 2),
             refresh_batch := [], batch_updates := 0 }) ∧
    ((({ max_size := 10, ttl_seconds := 10, cache := [(1, 0)], hits := 0,
         misses := 1, bulk_misses := 1, evictions := 0, expirations := 0,
         half_ttl := 1 / 2, max_request_size := 3,
         half_ttl_seconds := ((10 : ℤ) : ℚ) * (1 / 2),
         refresh_batch := [], batch_updates := 0 } : BatchRefreshCache Nat).get
        [1, 1] 6).2.refresh_batch = [1, 1]) ∧
    ¬ ([1, 1] : List Nat).Nodup := by
  refine ⟨rfl, ?_, by decide⟩
  have hcollect : BatchRefreshCache.collectNearExpired
      ({ max_size := 10, ttl_seconds := 10, cache := [(1, 0)], hits := 0,
         misses := 1, bulk_misses := 1, evictions := 0, expirations := 0,
         half_ttl := 1 / 2, max_request_size := 3,
         half_ttl_seconds := ((10 : ℤ) : ℚ) * (1 / 2),
         refresh_batch := [], batch_updates := 0 } : BatchRefreshCache Nat)
      [1, 1] 6 = [1, 1] := by
    rw [collectNearExpired_eq_filter]
    have h1 : BatchRefreshCache.shouldEnqueue
        ({ max_size := 10, ttl_seconds := 10, cache := [(1, 0)], hits := 0,
           misses := 1, bulk_misses := 1, evictions := 0, expirations := 0,
           half_ttl := 1 / 2, max_request_size := 3,
           half_ttl_seconds := ((10 : ℤ) : ℚ) * (1 / 2),
           refresh_batch := [], batch_updates := 0 } : BatchRefreshCache Nat)
        6 1 = true := by
      unfold BatchRefreshCache.shouldEnqueue
      have hnear : BatchRefreshCache.isNearExpiration
          ({ max_size := 10, ttl_seconds := 10, cache := [(1, 0)], hits := 0,
             misses := 1, bulk_misses := 1, evictions := 0, expirations := 0,
             half_ttl := 1 / 2, max_request_size := 3,
             half_ttl_seconds := ((10 : ℤ) : ℚ) * (1 / 2),
             refresh_batch := [], batch_updates := 0 } : BatchRefreshCache Nat)
          0 6 = true := by
        unfold BatchRefreshCache.isNearExpiration
        simp only [decide_eq_true_eq]
        push_cast
        norm_num
      rw [show odLookup
          ({ max_size := 10, ttl_seconds := 10, cache := [(1, 0)], hits := 0,
             misses := 1, bulk_misses := 1, evictions := 0, expirations := 0,
             half_ttl := 1 / 2, max_request_size := 3,
             half_ttl_seconds := ((10 : ℤ) : ℚ) * (1 / 2),
             refresh_batch := [], batch_updates := 0 } :
            BatchRefreshCache Nat).cache 1 = some 0 from rfl]
      dsimp only
      rw [if_neg (by decide), if_pos hnear]
      decide
    rw [List.filter_cons, if_pos h1, List.filter_cons, if_pos h1, List.filter_nil]
  unfold BatchRefreshCache.get
  rw [if_neg (by decide)]
  dsimp only
  rw [hcollect]
  unfold BatchRefreshCache.processRefreshBatch
  rw [if_neg (by decide)]
  rfl

/-- C6, amended: the refresh queue holds each key at most once between
flushes, provided no single call's key list repeats a key: starting from a
fresh batch cache, after any sequence of bulk lookups whose individual key
lists are duplicate-free, the queue is duplicate-free.  (Duplicates can enter
only via a repeated key inside one call, as the counterexample shows.) -/
theorem C6_theorem (max_size ttl_v : ℤ) (half : ℚ) (bt : Int)
    (calls : List (List K × ℤ)) (hcalls : ∀ c ∈ calls, c.1.Nodup)
    (b0 : BatchRefreshCache K)
    (hinit : BatchRefreshCache.init K max_size ttl_v half bt = .ok b0) :
    (BatchRefreshCache.run b0 calls).refresh_batch.Nodup := by
  have hq0 : b0.refresh_batch = [] := by
    unfold BatchRefreshCache.init LRUCache.init at hinit
    have := Except.ok.inj hinit
    rw [← this]
  exact run_queue_nodup calls b0 (by rw [hq0]; exact List.nodup_nil) hcalls

/-- C6, witness at a concrete input. -/
theorem C6_witness :
    (BatchRefreshCache.run
      { max_size := 10, ttl_seconds := 10, cache := [], hits := 0, misses := 0,
        bulk_misses := 0, evictions := 0, expirations := 0, half_ttl := 1 / 2,
        max_request_size := 3, half_ttl_seconds := ((10 : ℤ) : ℚ) * (1 / 2),
        refresh_batch := [], batch_updates := 0 }
      [([1], 0), ([1, 2], 6)]).refresh_batch.Nodup :=
  C6_theorem 10 10 (1 / 2) 3 [([1], 0), ([1, 2], 6)] (by decide) _ rfl

/-! ## The flush pass of `_process_refresh_batch` -/

theorem mapSet_id (c : List (K × ℤ)) (a : K) (v : ℤ) (h : a ∉ odKeys c) :
    c.map (fun p => if p.1 = a then (p.1, v) else p) = c := by
  induction c with
  | nil => rfl
  | cons p rest ih =>
      simp only [odKeys_cons, List.mem_cons, not_or] at h
      have hp : ¬ p.1 = a := fun hh => h.1 hh.symm
      simp only [List.map_cons, hp, if_false, ih h.2]

theorem odRemove_odSet (c : List (K × ℤ)) (a : K) (t : ℤ) (hnd : NodupKeys c)
    (ha : (odLookup c a).isSome) :
    odRemove (odSet c a t) a = odRemove c a := by
  unfold odSet
  rw [if_pos ha]
  induction c with
  | nil => rfl
  | cons p rest ih =>
      simp only [NodupKeys, odKeys_cons, List.nodup_cons] at hnd
      by_cases hp : p.1 = a
      · simp only [List.map_cons, hp, if_true, odRemove, if_pos rfl]
        exact mapSet_id rest a t (hp ▸ hnd.1)
      · simp only [List.map_cons, hp, if_false, odRemove]
        by_cases hrest : (odLookup rest a).isSome
        · exact congrArg (p :: ·) (ih hnd.2 hrest)
        · have hnone : odLookup rest a = none :=
            Option.not_isSome_iff_eq_none.mp hrest
          rw [mapSet_id rest a t ((odLookup_eq_none_iff rest a).mp hnone)]
  
theorem flushStep_shape (c : List (K × ℤ)) (a : K) (t : ℤ) (hnd : NodupKeys c)
    (ha : (odLookup c a).isSome) :
    odMoveToEnd (odSet c a t) a = odRemove c a ++ [(a, t)] := by
  unfold odMoveToEnd
  rw [odLookup_odSet_self]
  rw [odRemove_odSet c a t hnd ha]

theorem odRemove_eq_filter (c : List (K × ℤ)) (a : K) (hnd : NodupKeys c) :
    odRemove c a = c.filter (fun p => decide (¬ p.1 = a)) := by
  induction c with
  | nil => rfl
  | cons p rest ih =>
      simp only [NodupKeys, odKeys_cons, List.nodup_cons] at hnd
      by_cases hp : p.1 = a
      · have hlhs : odRemove (p :: rest) a = rest := by
          simp only [odRemove, hp, if_true]
        rw [hlhs, List.filter_cons, if_neg (by simp [hp])]
        symm
        rw [List.filter_eq_self]
        intro p' hp'
        simp only [decide_eq_true_eq]
        intro hcontra
        exact (hp ▸ hnd.1) (hcontra ▸ List.mem_map_of_mem Prod.fst hp')
      · have hlhs : odRemove (p :: rest) a = p :: odRemove rest a := by
          simp only [odRemove, hp, if_false]
        rw [hlhs, List.filter_cons, if_pos (by simp [hp])]
        exact congrArg (p :: ·) (ih hnd.2)

theorem flushStep_spec (c : List (K × ℤ)) (a : K) (t : ℤ) (hnd : NodupKeys c) :
    NodupKeys (if (odLookup c a).isSome then odMoveToEnd (odSet c a t) a else c) ∧
    (∀ k, k ≠ a →
      odLookup (if (odLookup c a).isSome then odMoveToEnd (odSet c a t) a else c) k =
        odLookup c k) ∧
    ((odLookup c a).isSome →
      odLookup (if (odLookup c a).isSome then odMoveToEnd (odSet c a t) a else c) a =
        some t) ∧
    (odLookup c a = none →
      odLookup (if (odLookup c a).isSome then odMoveToEnd (odSet c a t) a else c) a =
        none) := by
  by_cases ha : (odLookup c a).isSome
  · rw [if_pos ha]
    have hndset : NodupKeys (odSet c a t) := nodupKeys_odSet c a t hnd
    refine ⟨nodupKeys_odMoveToEnd _ a hndset, ?_, ?_, ?_⟩
    · intro k hk
      rw [odLookup_odMoveToEnd_ne _ _ _ hk, odLookup_odSet_ne _ _ _ _ hk]
    · intro _
      rw [odLookup_odMoveToEnd_self _ _ hndset, odLookup_odSet_self]
    · intro hnone
      rw [hnone] at ha
      simp at ha
  · rw [if_neg ha]
    exact ⟨hnd, fun k _ => rfl, fun hs => absurd hs ha, fun h => h⟩

theorem flushFold_keep (t : ℤ) :
    ∀ (batch : List K) (c : List (K × ℤ)) (k : K), NodupKeys c →
      odLookup c k = some t →
      odLookup (batch.foldl
        (fun c k => if (odLookup c k).isSome then odMoveToEnd (odSet c k t) k else c)
        c) k = some t := by
  intro batch
  induction batch with
  | nil => intro c k _ h; exact h
  | cons a batch ih =>
      intro c k hnd h
      rw [List.foldl_cons]
      obtain ⟨s1, s2, s3, s4⟩ := flushStep_spec c a t hnd
      by_cases hk : k = a
      · subst hk
        refine ih _ k s1 (s3 (by rw [h]; rfl))
      · exact ih _ k s1 (by rw [s2 k hk]; exact h)

theorem flushFold_spec (t : ℤ) :
    ∀ (batch : List K) (c : List (K × ℤ)), NodupKeys c →
      NodupKeys (batch.foldl
        (fun c k => if (odLookup c k).isSome then odMoveToEnd (odSet c k t) k else c)
        c) ∧
      (∀ k, k ∉ batch →
        odLookup (batch.foldl
          (fun c k => if (odLookup c k).isSome then odMoveToEnd (odSet c k t) k else c)
          c) k = odLookup c k) ∧
      (∀ k, odLookup c k = none →
        odLookup (batch.foldl
          (fun c k => if (odLookup c k).isSome then odMoveToEnd (odSet c k t) k else c)
          c) k = none) ∧
      (∀ k ∈ batch, ∀ v, odLookup c k = some v →
        odLookup (batch.foldl
          (fun c k => if (odLookup c k).isSome then odMoveToEnd (odSet c k t) k else c)
          c) k = some t) := by
  intro batch
  induction batch with
  | nil =>
      intro c hnd
      exact ⟨hnd, fun k _ => rfl, fun k h => h,
        fun k hk => absurd hk (List.not_mem_nil k)⟩
  | cons a batch ih =>
      intro c hnd
      rw [List.foldl_cons]
      obtain ⟨s1, s2, s3, s4⟩ := flushStep_spec c a t hnd
      obtain ⟨f1, f2, f3, f4⟩ := ih _ s1
      refine ⟨f1, ?_, ?_, ?_⟩
      · intro k hk
        have hka : k ≠ a := fun hh => hk (hh ▸ List.mem_cons_self a batch)
        have hkb : k ∉ batch := fun hh => hk (List.mem_cons_of_mem a hh)
        rw [f2 k hkb, s2 k hka]
      · intro k hk
        by_cases hka : k = a
        · subst hka
          exact f3 k (s4 hk)
        · exact f3 k (by rw [s2 k hka]; exact hk)
      · intro k hk v hv
        rcases List.mem_cons.mp hk with hka | hkb
        · subst hka
          have hstep : odLookup
              (if (odLookup c k).isSome then odMoveToEnd (odSet c k t) k else c) k =
                some t := s3 (by rw [hv]; rfl)
          exact flushFold_keep t batch _ k s1 hstep
        · by_cases hka : k = a
          · subst hka
            have hstep : odLookup
                (if (odLookup c k).isSome then odMoveToEnd (odSet c k t) k else c) k =
                  some t := s3 (by rw [hv]; rfl)
            exact flushFold_keep t batch _ k s1 hstep
          · exact f4 k hkb v (by rw [s2 k hka]; exact hv)

/-- The full shape of the cache after a flush pass over a duplicate-free
queue: entries whose keys are not queued keep their order and timestamps at
the least-recently-used end, and every still-present queued key is re-added
at the most-recently-used end, in queue order, with timestamp `t`. -/
theorem flushFold_shape (t : ℤ) :
    ∀ (batch : List K) (c : List (K × ℤ)), NodupKeys c → batch.Nodup →
      batch.foldl
        (fun c k => if (odLookup c k).isSome then odMoveToEnd (odSet c k t) k else c)
        c =
        c.filter (fun p => decide (p.1 ∉ batch)) ++
          (batch.filter (fun k => (odLookup c k).isSome)).map (fun k => (k, t)) := by
  intro batch
  induction batch with
  | nil =>
      intro c hnd _
      simp
  | cons a batch ih =>
      intro c hnd hbnd
      obtain ⟨hab, hbnd2⟩ := List.nodup_cons.mp hbnd
      rw [List.foldl_cons]
      by_cases ha : (odLookup c a).isSome
      · rw [if_pos ha, flushStep_shape c a t hnd ha]
        have hnd' : NodupKeys (odRemove c a ++ [(a, t)]) := by
          have hh := nodupKeys_odMoveToEnd (odSet c a t) a (nodupKeys_odSet c a t hnd)
          rwa [flushStep_shape c a t hnd ha] at hh
        rw [ih _ hnd' hbnd2]
        have hlook' : ∀ k, k ≠ a →
            odLookup (odRemove c a ++ [(a, t)]) k = odLookup c k := by
          intro k hk
          by_cases hs : (odLookup (odRemove c a) k).isSome
          · rw [odLookup_append_left _ _ _ hs, odLookup_odRemove_of_ne c a k hk]
          · have hn := Option.not_isSome_iff_eq_none.mp hs
            rw [odLookup_append_right _ _ _ hn]
            rw [odLookup_odRemove_of_ne c a k hk] at hn
            have hak : ¬ a = k := fun hh => hk hh.symm
            simp only [odLookup_cons, hak, if_false, odLookup_nil]
            exact hn.symm
        have hfilter1 : (odRemove c a ++ [(a, t)]).filter
            (fun p => decide (p.1 ∉ batch)) =
              c.filter (fun p => decide (p.1 ∉ a :: batch)) ++ [(a, t)] := by
          rw [List.filter_append, odRemove_eq_filter c a hnd, List.filter_filter]
          have hone : ([(a, t)] : List (K × ℤ)).filter
              (fun p => decide (p.1 ∉ batch)) = [(a, t)] := by
            rw [List.filter_eq_self]
            intro p hp
            rw [List.mem_singleton.mp hp]
            simpa using hab
          rw [hone]
          congr 1
          apply List.filter_congr
          intro p hp
          simp [List.mem_cons, not_or, Bool.and_comm]
        have hfilter3 : batch.filter
            (fun k => (odLookup (odRemove c a ++ [(a, t)]) k).isSome) =
              batch.filter (fun k => (odLookup c k).isSome) := by
          apply List.filter_congr
          intro k hk
          rw [hlook' k (fun hh => hab (hh ▸ hk))]
        have hfilter4 : (a :: batch).filter (fun k => (odLookup c k).isSome) =
            a :: batch.filter (fun k => (odLookup c k).isSome) := by
          rw [List.filter_cons, if_pos ha]
        rw [hfilter1, hfilter3, hfilter4]
        simp [List.append_assoc]
      · rw [if_neg ha]
        rw [ih _ hnd hbnd2]
        have hnone := Option.not_isSome_iff_eq_none.mp ha
        have hfilter : c.filter (fun p => decide (p.1 ∉ batch)) =
            c.filter (fun p => decide (p.1 ∉ a :: batch)) := by
          apply List.filter_congr
          intro p hp
          have hpa : ¬ p.1 = a := by
            intro hh
            have hmem : a ∈ odKeys c := hh ▸ List.mem_map_of_mem Prod.fst hp
            exact absurd hmem ((odLookup_eq_none_iff c a).mp hnone)
          simp [List.mem_cons, hpa]
        have hfilter2 : (a :: batch).filter (fun k => (odLookup c k).isSome) =
            batch.filter (fun k => (odLookup c k).isSome) := by
          rw [List.filter_cons, if_neg (by simp [hnone])]
        rw [hfilter, hfilter2]

theorem processRefreshBatch_below (s : BatchRefreshCache K) (t : ℤ)
    (h : (s.refresh_batch.length : Int) < s.max_request_size) :
    s.processRefreshBatch t = s := by
  unfold BatchRefreshCache.processRefreshBatch
  rw [if_neg (not_le.mpr h)]

theorem processRefreshBatch_flush_spec (s : BatchRefreshCache K) (t : ℤ)
    (hnd : NodupKeys s.cache)
    (h : (s.refresh_batch.length : Int) ≥ s.max_request_size) :
    (s.processRefreshBatch t).batch_updates = s.batch_updates + 1 ∧
    (s.processRefreshBatch t).refresh_batch = [] ∧
    NodupKeys (s.processRefreshBatch t).cache ∧
    (∀ k ∈ s.refresh_batch, ∀ v, odLookup s.cache k = some v →
       odLookup (s.processRefreshBatch t).cache k = some t) ∧
    (∀ k, odLookup s.cache k = none →
       odLookup (s.processRefreshBatch t).cache k = none) ∧
    (∀ k, k ∉ s.refresh_batch →
       odLookup (s.processRefreshBatch t).cache k = odLookup s.cache k) ∧
    (s.refresh_batch.Nodup →
       (s.processRefreshBatch t).cache =
         s.cache.filter (fun p => decide (p.1 ∉ s.refresh_batch)) ++
           (s.refresh_batch.filter (fun k => (odLookup s.cache k).isSome)).map
             (fun k => (k, t))) := by
  obtain ⟨f1, f2, f3, f4⟩ := flushFold_spec t s.refresh_batch s.cache hnd
  unfold BatchRefreshCache.processRefreshBatch
  rw [if_pos h]
  exact ⟨rfl, rfl, f1, fun k hk v hv => f4 k hk v hv, f3, f2,
    fun hbnd => flushFold_shape t s.refresh_batch s.cache hnd hbnd⟩

theorem batch_get_state (b : BatchRefreshCache K) (keys : List K) (t : ℤ)
    (hne : keys ≠ []) :
    (BatchRefreshCache.get b keys t).2 =
      (BatchRefreshCache.afterDelegate b keys t).processRefreshBatch t := by
  unfold BatchRefreshCache.get BatchRefreshCache.afterDelegate
  rw [if_neg hne]

theorem afterDelegate_nodup (b : BatchRefreshCache K) (keys : List K) (t : ℤ)
    (hnd : NodupKeys b.cache) :
    NodupKeys (BatchRefreshCache.afterDelegate b keys t).cache := by
  unfold BatchRefreshCache.afterDelegate
  exact (get_state_spec
    { b with refresh_batch :=
        b.refresh_batch ++ BatchRefreshCache.collectNearExpired b keys t }.toLRUCache
    keys t hnd).1

/-- C5: one batched bulk lookup, relative to the intermediate state reached
after enqueueing and delegation (`afterDelegate`): if the queue is below
`batch_threshold` nothing further happens; if it has reached the threshold,
the batch counter is incremented by exactly one, the queue is cleared, every
queued key still present has its timestamp reset to the request time, keys no
longer present are skipped and stay absent, unqueued keys are untouched, and
(for a duplicate-free queue) the resulting cache is exactly the unqueued
entries in their old order followed by the still-present queued keys, in
queue order, at the most-recently-touched end with timestamp `t`. -/
theorem C5_theorem (b : BatchRefreshCache K) (keys : List K) (t : ℤ)
    (hne : keys ≠ []) (hnd : NodupKeys b.cache) :
    (((BatchRefreshCache.afterDelegate b keys t).refresh_batch.length : Int) <
        (BatchRefreshCache.afterDelegate b keys t).max_request_size →
      (BatchRefreshCache.get b keys t).2 = BatchRefreshCache.afterDelegate b keys t) ∧
    (((BatchRefreshCache.afterDelegate b keys t).refresh_batch.length : Int) ≥
        (BatchRefreshCache.afterDelegate b keys t).max_request_size →
      ((BatchRefreshCache.get b keys t).2.batch_updates =
         (BatchRefreshCache.afterDelegate b keys t).batch_updates + 1 ∧
       (BatchRefreshCache.get b keys t).2.refresh_batch = [] ∧
       (∀ k ∈ (BatchRefreshCache.afterDelegate b keys t).refresh_batch, ∀ v,
          odLookup (BatchRefreshCache.afterDelegate b keys t).cache k = some v →
          odLookup (BatchRefreshCache.get b keys t).2.cache k = some t) ∧
       (∀ k, odLookup (BatchRefreshCache.afterDelegate b keys t).cache k = none →
          odLookup (BatchRefreshCache.get b keys t).2.cache k = none) ∧
       (∀ k, k ∉ (BatchRefreshCache.afterDelegate b keys t).refresh_batch →
          odLookup (BatchRefreshCache.get b keys t).2.cache k =
            odLookup (BatchRefreshCache.afterDelegate b keys t).cache k) ∧
       ((BatchRefreshCache.afterDelegate b keys t).refresh_batch.Nodup →
          (BatchRefreshCache.get b keys t).2.cache =
            (BatchRefreshCache.afterDelegate b keys t).cache.filter
              (fun p => decide
                (p.1 ∉ (BatchRefreshCache.afterDelegate b keys t).refresh_batch)) ++
            ((BatchRefreshCache.afterDelegate b keys t).refresh_batch.filter
              (fun k =>
                (odLookup (BatchRefreshCache.afterDelegate b keys t).cache k).isSome)).map
              (fun k => (k, t))))) := by
  have hmidnd : NodupKeys (BatchRefreshCache.afterDelegate b keys t).cache :=
    afterDelegate_nodup b keys t hnd
  constructor
  · intro hlt
    rw [batch_get_state b keys t hne]
    exact processRefreshBatch_below _ t hlt
  · intro hge
    rw [batch_get_state b keys t hne]
    obtain ⟨p1, p2, p3, p4, p5, p6, p7⟩ :=
      processRefreshBatch_flush_spec _ t hmidnd hge
    exact ⟨p1, p2, p4, p5, p6, p7⟩

/-- C5, witness at a concrete input reaching the flush threshold. -/
theorem C5_witness :
    (BatchRefreshCache.get
      { max_size := 3, ttl_seconds := 10, cache := [(4, 1), (2, 0), (3, 0)],
        hits := 0, misses := 0, bulk_misses := 0, evictions := 0,
        expirations := 0, half_ttl := 1 / 2, max_request_size := 2,
        half_ttl_seconds := 5, refresh_batch := [2], batch_updates := 0 }
      [3] 7).2.batch_updates =
      (BatchRefreshCache.afterDelegate
        { max_size := 3, ttl_seconds := 10, cache := [(4, 1), (2, 0), (3, 0)],
          hits := 0, misses := 0, bulk_misses := 0, evictions := 0,
          expirations := 0, half_ttl := 1 / 2, max_request_size := 2,
          half_ttl_seconds := 5, refresh_batch := [2], batch_updates := 0 }
        [3] 7).batch_updates + 1 ∧
    (BatchRefreshCache.get
      { max_size := 3, ttl_seconds := 10, cache := [(4, 1), (2, 0), (3, 0)],
        hits := 0, misses := 0, bulk_misses := 0, evictions := 0,
        expirations := 0, half_ttl := 1 / 2, max_request_size := 2,
        half_ttl_seconds := 5, refresh_batch := [2], batch_updates := 0 }
      [3] 7).2.refresh_batch = ([] : List Nat) :=
  ⟨((C5_theorem (K := Nat)
      { max_size := 3, ttl_seconds := 10, cache := [(4, 1), (2, 0), (3, 0)],
        hits := 0, misses := 0, bulk_misses := 0, evictions := 0,
        expirations := 0, half_ttl := 1 / 2, max_request_size := 2,
        half_ttl_seconds := 5, refresh_batch := [2], batch_updates := 0 }
      [3] 7 (by decide) (by decide)).2 (by decide)).1,
   ((C5_theorem (K := Nat)
      { max_size := 3, ttl_seconds := 10, cache := [(4, 1), (2, 0), (3, 0)],
        hits := 0, misses := 0, bulk_misses := 0, evictions := 0,
        expirations := 0, half_ttl := 1 / 2, max_request_size := 2,
        half_ttl_seconds := 5, refresh_batch := [2], batch_updates := 0 }
      [3] 7 (by decide) (by decide)).2 (by decide)).2.1⟩
